import Mathlib

/-!
# Verification of the CanvasKit locale-aware line-break optimization engine

This file gives a shallow embedding, in Lean 4, of the line-breaking engine of
the CanvasKit repository and proves / refutes the specification claims about it.

JavaScript numbers are modelled as exact rationals (`ℚ`); `Math.sqrt` (which
only occurs in the normalized score breakdown of the dynamic-programming
optimizer) is modelled with `Real.sqrt`, so the score-breakdown record lives
in `ℝ`.  `Infinity` (used for unreached dynamic-programming states) is
modelled as `Option ℚ` with `none` standing for `Infinity`.  The ambient
`Math.random()` generator is modelled as an explicit stream of rationals
together with a cursor; each call to `Math.random()` consumes the next value.

The repository file `src/optimize_linebreaks.js` contains two related
implementations of the candidate generator:

* `LB1`: the recursive enumerator `generateCandidates` together with
  `scoreCandidate`, `calcWidth`, `isProtectedBreak` and the thin wrapper
  `computeBreaks` that simply forwards to `generateCandidates`;
* `LB2`: the Knuth–Plass style dynamic-programming `computeBreaks` together
  with `reconstructSolution`, `calculateLineWidths`, `findBreakIndices`,
  `breakPatternDifference`, `calculateScoreBreakdown` and the randomized
  diversity search `findAlternatives`.

Both are embedded below, each from its own source text.
-/

/- The kernel must be able to evaluate the embedding on concrete inputs for
the witness and counterexample theorems below; the sealed rational-arithmetic
primitives are restored to their default reducibility for that purpose. -/
attribute [local semireducible] Rat.add Rat.sub Rat.mul Rat.inv Rat.ofScientific

/-- Model of JavaScript `String.prototype.toLowerCase` restricted to the
character ranges the engine's rules actually inspect: ASCII letters plus the
accented uppercase letters appearing in the engine's regular expressions. -/
def jsCharLower (c : Char) : Char :=
  if 'A' ≤ c ∧ c ≤ 'Z' then Char.ofNat (c.toNat + 32)
  else if c = 'Á' then 'á'
  else if c = 'É' then 'é'
  else if c = 'Í' then 'í'
  else if c = 'Ó' then 'ó'
  else if c = 'Ú' then 'ú'
  else if c = 'Ñ' then 'ñ'
  else c

/-- Model of JavaScript `toLowerCase` on a whole string. -/
def jsToLower (s : String) : String :=
  String.mk (s.data.map jsCharLower)

/-- Model of JavaScript `Array.prototype.slice(a, b)` (elements `[a, b)`). -/
def jsSlice {α : Type} (l : List α) (a b : ℕ) : List α :=
  (l.drop a).take (b - a)

namespace LB1

/-- `protectedWords` from `optimize_linebreaks.js`: common function words whose
surrounding breaks are penalized. -/
def protectedWords : List String :=
  ["the", "a", "an", "of", "in", "on", "with", "and", "but", "or", "for"]

/-- `isProtectedBreak(words, index)`: a break position is protected when the
word before it or after it is a protected function word. -/
def isProtectedBreak (words : List String) (index : ℕ) : Bool :=
  if index ≤ 0 ∨ index ≥ words.length then false
  else
    let prev := jsToLower (words.getD (index - 1) "")
    let next := jsToLower (words.getD index "")
    protectedWords.contains prev || protectedWords.contains next

/-- `calcWidth(words, wordWidths, spaceWidth, start, end)`: the loop sums
`wordWidths[i]` for `i = start..end` and adds `spaceWidth` for every `i`
after the first. -/
def calcWidth (wordWidths : List ℚ) (spaceWidth : ℚ) (start e : ℕ) : ℚ :=
  (List.range' start (e + 1 - start)).foldl
    (fun width i =>
      width + wordWidths.getD i 0 + (if i > start then spaceWidth else 0)) 0

/-- The `scoreBreakdown` record produced by `scoreCandidate`. -/
structure Breakdown where
  raggedness : ℚ
  evenness : ℚ
  fillPenalty : ℚ
  widowsOrphans : ℚ
  protectedBreaks : ℚ
  deriving DecidableEq, Repr

/-- The `{ score, scoreBreakdown }` result of `scoreCandidate`. -/
structure ScoreResult where
  score : ℚ
  scoreBreakdown : Breakdown
  deriving DecidableEq, Repr

/-- `scoreCandidate(lines, lineWidths, targetWidth, breaks, words, mode)`.
`mode` is kept as a string, exactly as in the source: any mode other than
`"fit"` or `"uniform"` leaves the weighted score at `0`. -/
def scoreCandidate (lines : List (List String)) (lineWidths : List ℚ)
    (targetWidth : ℚ) (breaks : List ℕ) (words : List String)
    (mode : String) : ScoreResult :=
  let fillPenalty := lineWidths.foldl (fun acc w => acc + (1 - w / targetWidth) ^ 2) 0
  let evenness : ℚ :=
    if lineWidths.length < 2 then 0
    else ((lineWidths.max?.getD 0) - (lineWidths.min?.getD 0)) ^ 2
  let raggedness := lineWidths.foldl (fun acc w => acc + (targetWidth - w) ^ 2) 0
  let lastLine := lines.getLastD []
  let widowsOrphans : ℚ := if lastLine.length = 1 then 50 else 0
  let protectedBreaks : ℚ :=
    ((breaks.filter (fun i => isProtectedBreak words i)).length : ℚ) * 30
  let weightedScore : ℚ :=
    if mode = "fit" then
      raggedness * 3 + evenness * 0.2 + fillPenalty + widowsOrphans + protectedBreaks
    else if mode = "uniform" then
      raggedness * 0.5 + evenness * 4 + fillPenalty + widowsOrphans + protectedBreaks
    else 0
  ⟨weightedScore, ⟨raggedness, evenness, fillPenalty, widowsOrphans, protectedBreaks⟩⟩

/-- A `LineCandidate` as produced by `generateCandidates`. -/
structure Candidate where
  breaks : List ℕ
  score : ℚ
  lines : List (List String)
  lineWidths : List ℚ
  scoreBreakdown : Breakdown
  deriving DecidableEq, Repr

/-- The line/width construction of the base case of `recurse`: starting from
`prev`, each break `br` contributes the line `words.slice(prev, br + 1)` with
width `calcWidth(..., prev, br)`, after which `prev` becomes `br + 1`. -/
def buildLines (words : List String) (wordWidths : List ℚ) (spaceWidth : ℚ) :
    ℕ → List ℕ → List (List String) × List ℚ
  | _, [] => ([], [])
  | prev, br :: rest =>
    let r := buildLines words wordWidths spaceWidth (br + 1) rest
    (jsSlice words prev (br + 1) :: r.1,
     calcWidth wordWidths spaceWidth prev br :: r.2)

/-- The candidate pushed by the base case of `recurse`: the final entry of
`currentBreaks` is dropped (it is the last token index, handled separately)
and the lines are rebuilt from the remaining breaks plus `totalWords - 1`. -/
def emitCandidate (words : List String) (wordWidths : List ℚ)
    (spaceWidth targetWidth : ℚ) (mode : String)
    (currentBreaks : List ℕ) : Candidate :=
  let breaks := currentBreaks.dropLast
  let bl := buildLines words wordWidths spaceWidth 0 (breaks ++ [words.length - 1])
  let s := scoreCandidate bl.1 bl.2 targetWidth breaks words mode
  ⟨breaks, s.score, bl.1, bl.2, s.scoreBreakdown⟩

/-- The `for (let end = start; ...)` loop of `recurse`, reduced to the list of
`end` positions at which the loop actually recurses: an `end` position is kept
when its line width lies in `[targetWidth·minFillRatio, targetWidth·(1 +
balanceFactor)]`, and scanning stops at the first `end` whose width exceeds
`targetWidth·(1 + balanceFactor)`.  `fuel` is a structural bound on the number
of loop iterations; every call below supplies enough fuel for the loop to run
to its natural end. -/
def scanEnds (wordWidths : List ℚ) (spaceWidth targetWidth bf mfr : ℚ)
    (n start : ℕ) : ℕ → ℕ → List ℕ
  | 0, _ => []
  | fuel + 1, e =>
    if e ≥ n then []
    else
      let width := calcWidth wordWidths spaceWidth start e
      (if targetWidth * mfr ≤ width ∧ width ≤ targetWidth * (1 + bf) then [e] else []) ++
      (if width > targetWidth * (1 + bf) then []
       else scanEnds wordWidths spaceWidth targetWidth bf mfr n start fuel (e + 1))

/-- `recurse(start, currentBreaks)` of `generateCandidates`: at `start ≥
totalWords` the accumulated breaks are emitted as a candidate; otherwise each
accepted `end` position spawns a recursive call on `end + 1` with the break
appended.  Candidates are collected in depth-first order, matching the order
in which the source pushes onto `allCandidates`.  `fuel` structurally bounds
the recursion depth; since every recursive call strictly increases `start`,
the top-level call with fuel `totalWords + 1` never exhausts it. -/
def recurse (words : List String) (wordWidths : List ℚ)
    (spaceWidth targetWidth : ℚ) (mode : String) (bf mfr : ℚ) :
    ℕ → ℕ → List ℕ → List Candidate
  | 0, _, _ => []
  | fuel + 1, start, currentBreaks =>
    if start ≥ words.length then
      [emitCandidate words wordWidths spaceWidth targetWidth mode currentBreaks]
    else
      (scanEnds wordWidths spaceWidth targetWidth bf mfr
          words.length start (words.length - start) start).flatMap
        (fun e =>
          recurse words wordWidths spaceWidth targetWidth mode bf mfr
            fuel (e + 1) (currentBreaks ++ [e]))

/-- `generateCandidates(words, wordWidths, spaceWidth, targetWidth,
candidateCount, mode, balanceFactor, minFillRatio)`: run the recursion from
`(0, [])`, sort ascending by score (stably) and keep the first
`candidateCount` candidates.  The JavaScript `Array.prototype.sort` with the
comparator `(a, b) => a.score - b.score` is a stable ascending sort by score;
it is modelled by the stable `List.insertionSort`. -/
def generateCandidates (words : List String) (wordWidths : List ℚ)
    (spaceWidth targetWidth : ℚ) (candidateCount : ℕ) (mode : String)
    (bf mfr : ℚ) : List Candidate :=
  ((recurse words wordWidths spaceWidth targetWidth mode bf mfr
      (words.length + 1) 0 []).insertionSort
    (fun a b => a.score ≤ b.score)).take candidateCount

/-- The first `computeBreaks` of `optimize_linebreaks.js`: a thin wrapper that
forwards to `generateCandidates` (the debug element only triggers logging). -/
def computeBreaks (words : List String) (wordWidths : List ℚ)
    (spaceWidth targetWidth : ℚ) (candidateCount : ℕ)
    (bf mfr : ℚ) (mode : String) : List Candidate :=
  generateCandidates words wordWidths spaceWidth targetWidth candidateCount mode bf mfr

/-- Invariant carried by the recursion: every segment `[prev, b]` cut out by
the accumulated break list was accepted by the width test of the loop. -/
def segsOK (wordWidths : List ℚ) (spaceWidth targetWidth bf mfr : ℚ) :
    ℕ → List ℕ → Prop
  | _, [] => True
  | prev, b :: rest =>
    (targetWidth * mfr ≤ calcWidth wordWidths spaceWidth prev b ∧
     calcWidth wordWidths spaceWidth prev b ≤ targetWidth * (1 + bf)) ∧
    segsOK wordWidths spaceWidth targetWidth bf mfr (b + 1) rest

/-- The `start` position corresponding to an accumulated break list: one past
its last entry (`0` when no break has been taken yet). -/
def lastPlusOne (cb : List ℕ) : ℕ :=
  match cb.getLast? with
  | none => 0
  | some b => b + 1

/-- The master soundness property of a candidate emitted by `recurse`. -/
def CandOK (words : List String) (targetWidth bf mfr : ℚ) (mode : String)
    (c : Candidate) : Prop :=
  c.breaks.Chain' (· < ·) ∧
  (∀ b ∈ c.breaks, b + 1 < words.length) ∧
  c.lines.flatten = words ∧
  (∀ l ∈ c.lines, l ≠ []) ∧
  c.lines.length = c.breaks.length + 1 ∧
  c.lineWidths.length = c.lines.length ∧
  c.score = (scoreCandidate c.lines c.lineWidths targetWidth c.breaks words mode).score ∧
  c.scoreBreakdown =
    (scoreCandidate c.lines c.lineWidths targetWidth c.breaks words mode).scoreBreakdown ∧
  (∀ w ∈ c.lineWidths, targetWidth * mfr ≤ w ∧ w ≤ targetWidth * (1 + bf))

end LB1

namespace LB2

/-- Explicit model of the ambient `Math.random()` generator: a stream of
rational draws together with a cursor.  Each call to `Math.random()` consumes
the next value of the stream. -/
structure Rng where
  stream : ℕ → ℚ
  pos : ℕ

/-- One call to `Math.random()`. -/
def Rng.next (r : Rng) : ℚ × Rng :=
  (r.stream r.pos, ⟨r.stream, r.pos + 1⟩)

/-- `Infinity`-aware addition: `penalties[i] + penalty` where `none` models
`Infinity` (so `Infinity + x = Infinity`). -/
def addInf : Option ℚ → ℚ → Option ℚ
  | none, _ => none
  | some a, p => some (a + p)

/-- `Infinity`-aware multiplication by a positive perturbation factor
(`Infinity * m = Infinity`). -/
def mulInf : Option ℚ → ℚ → Option ℚ
  | none, _ => none
  | some a, m => some (a * m)

/-- The JavaScript comparison `totalPenalty < penalties[j + 1]` with `none`
modelling `Infinity`: `Infinity < x` is false for every `x`, and any finite
value is `< Infinity`. -/
def ltInf : Option ℚ → Option ℚ → Bool
  | none, _ => false
  | some _, none => true
  | some a, some b => a < b

/-- The sort comparator `(a, b) => a.score - b.score` as a (total) `≤` on
possibly-infinite scores; two `Infinity` scores compare as equal. -/
def leInf : Option ℚ → Option ℚ → Bool
  | none, none => true
  | none, some _ => false
  | some _, none => true
  | some a, some b => a ≤ b

/-- The three parallel arrays `penalties` / `breaks` / `widths` of the dynamic
program, modelled as total maps from index to value. -/
structure DPState where
  penalties : ℕ → Option ℚ
  breaks : ℕ → ℕ
  widths : ℕ → ℚ

/-- The initialisation of the DP arrays: every penalty `Infinity` except
`penalties[0] = 0`, every break pointer `0`, every width `0`. -/
def dpInit : DPState :=
  ⟨fun j => if j = 0 then some 0 else none, fun _ => 0, fun _ => 0⟩

/-- The per-line penalty of the main dynamic program (lines 354–378 of
`computeBreaks`): `'fill'` mode uses the absolute distance from the target;
every other mode uses the under/over-weighted linear distance; in both cases
a fill-ratio penalty is added for lines shorter than the adjusted minimum
fill ratio. -/
def mainPenalty (targetWidth bf mfr : ℚ) (mode : String) (width : ℚ) : ℚ :=
  let penalty :=
    if mode = "fill" then |targetWidth - width|
    else
      let underWeightFactor := 0.5 * (1 - bf)
      let overWeightFactor := 3 * (0.5 + bf * 0.5)
      if width ≤ targetWidth then (targetWidth - width) * underWeightFactor
      else (width - targetWidth) * overWeightFactor
  let fillRatio := width / targetWidth
  let adjustedMinFillRatio := mfr + bf * 0.1
  if fillRatio < adjustedMinFillRatio then
    penalty + (adjustedMinFillRatio - fillRatio) * targetWidth * (1.5 + bf * 1)
  else penalty

/-- The inner `for (let j = i; j < n; j++)` loop of the main dynamic program:
the running line width is accumulated, the loop stops as soon as it exceeds
`targetWidth * 1.5`, and a strictly better total penalty updates the three
arrays at `j + 1`.  `fuel` structurally bounds the iteration count (`n - i`
at the call site is always enough). -/
def innerDP (wordWidths : List ℚ) (spaceWidth targetWidth bf mfr : ℚ)
    (mode : String) (n i : ℕ) : ℕ → ℕ → ℚ → DPState → DPState
  | 0, _, _, st => st
  | fuel + 1, j, width, st =>
    if j ≥ n then st
    else
      let width := width + wordWidths.getD j 0 + (if j > i then spaceWidth else 0)
      if width > targetWidth * 1.5 then st
      else
        let penalty := mainPenalty targetWidth bf mfr mode width
        let totalPenalty := addInf (st.penalties i) penalty
        let st' :=
          if ltInf totalPenalty (st.penalties (j + 1)) then
            DPState.mk (Function.update st.penalties (j + 1) totalPenalty)
              (Function.update st.breaks (j + 1) i)
              (Function.update st.widths (j + 1) width)
          else st
        innerDP wordWidths spaceWidth targetWidth bf mfr mode n i fuel (j + 1) width st'

/-- The full main dynamic program (`for (let i = 0; i < n; i++)`). -/
def mainDP (wordWidths : List ℚ) (spaceWidth targetWidth bf mfr : ℚ)
    (mode : String) (n : ℕ) : DPState :=
  (List.range n).foldl
    (fun st i => innerDP wordWidths spaceWidth targetWidth bf mfr mode n i (n - i) i 0 st)
    dpInit

/-- `reconstructSolution(words, breaks, j)`: walk the predecessor array and cut
out the line `[breaks[j], j)`.  `fuel` structurally bounds the recursion depth;
under the DP invariant `breaks[j] < j` the depth is at most `j`, so the call
sites (fuel `n + 1`) never exhaust it (on an array violating the invariant the
JavaScript original would recurse forever). -/
def reconstructSolution (words : List String) (breaks : ℕ → ℕ) :
    ℕ → ℕ → List (List String)
  | 0, _ => []
  | fuel + 1, j =>
    if j = 0 then []
    else
      reconstructSolution words breaks fuel (breaks j) ++
      [(List.range' (breaks j) (j - breaks j)).map (fun i => words.getD i "")]

/-- `calculateLineWidths(lines, wordWidths, spaceWidth)`.  The JavaScript
`lines.indexOf(line)` compares by object identity and each line is a distinct
array object, so it always yields the position of the line itself; the model
therefore maps with the index directly. -/
def calculateLineWidths (lines : List (List String)) (wordWidths : List ℚ)
    (spaceWidth : ℚ) : List ℚ :=
  lines.mapIdx (fun idx line =>
    let wordIndex := ((lines.take idx).map List.length).sum
    (List.range line.length).foldl
      (fun width i =>
        width + wordWidths.getD (wordIndex + i) 0 +
          (if i < line.length - 1 then spaceWidth else 0)) 0)

/-- `findBreakIndices(lines)`: the cumulative token count minus one, for every
line except the last.  The indices are integers because the JavaScript value
`wordCount - 1` may be `-1` when a line is empty. -/
def findBreakIndices (lines : List (List String)) : List ℤ :=
  ((List.range (lines.length - 1)).foldl
    (fun (acc : List ℤ × ℤ) i =>
      let wordCount := acc.2 + ((lines.getD i []).length : ℤ)
      (acc.1 ++ [wordCount - 1], wordCount))
    ([], 0)).1

/-- `breakPatternDifference(pattern1, pattern2, totalWords)`: symmetric set
difference of the break indices plus twice the difference in line counts
(`totalWords` is accepted but unused, as in the source). -/
def breakPatternDifference (pattern1 pattern2 : List ℤ) (_totalWords : ℕ) : ℤ :=
  let uniqueToPattern1 := (pattern1.filter (fun b => ¬ pattern2.contains b)).length
  let uniqueToPattern2 := (pattern2.filter (fun b => ¬ pattern1.contains b)).length
  let totalDifference := uniqueToPattern1 + uniqueToPattern2
  let lineCountDiff := ((pattern1.length : ℤ) - (pattern2.length : ℤ)).natAbs
  (totalDifference : ℤ) + (lineCountDiff : ℤ) * 2

/-- A candidate of the dynamic-programming `computeBreaks`.  The JavaScript
object also carries a `scoreBreakdown` field, which is exactly
`calculateScoreBreakdown lines lineWidths targetWidth balanceFactor` — a pure
function of the fields stored here; it is kept out of the record so that the
candidate data stays computable (the breakdown involves `Math.sqrt`). -/
structure Cand where
  lines : List (List String)
  breaks : List ℤ
  score : Option ℚ
  lineWidths : List ℚ
  deriving DecidableEq, Repr

/-- `variantTargetWidth` inside `findAlternatives` (lines 429–443). -/
def variantTargetWidth (targetWidth : ℚ) (variant : ℕ) (varianceFactor : ℚ) : ℚ :=
  if variant % 4 = 0 then targetWidth * (0.95 - varianceFactor * 0.1)
  else if variant % 4 = 1 then targetWidth * (1.05 + varianceFactor * 0.1)
  else if variant % 4 = 2 then targetWidth * (if variant % 2 = 0 then 0.9 else 1.1)
  else targetWidth

/-- The per-line penalty of a perturbed variant pass (lines 463–502), before
the random perturbation. -/
def altPenalty (variant : ℕ) (varianceFactor vtw width : ℚ) (i j n : ℕ) : ℚ :=
  let penalty :=
    if variant % 3 = 0 then
      if width ≤ vtw then (vtw - width) * (0.3 + varianceFactor)
      else (width - vtw) * (2 + varianceFactor)
    else if variant % 3 = 1 then
      let diff := |vtw - width|
      diff * diff * (0.01 + varianceFactor * 0.02)
    else
      if width ≤ vtw then (vtw - width) * (0.8 - varianceFactor * 0.3)
      else (width - vtw) * (1.5 + varianceFactor)
  let positionFactor : ℚ := (i : ℚ) / (n : ℚ)
  let penalty :=
    if variant % 2 = 0 then penalty * (1 + positionFactor * varianceFactor)
    else penalty * (1 + (1 - positionFactor) * varianceFactor)
  let lineLength : ℕ := j - i + 1
  let avgWordsPerLine : ℚ :=
    (n : ℚ) / ((max (⌊(n : ℚ) / (lineLength : ℚ)⌋) 1 : ℤ) : ℚ)
  let lengthDiff := |(lineLength : ℚ) - avgWordsPerLine|
  if lengthDiff > avgWordsPerLine * 0.5 then
    penalty + lengthDiff * 5 * varianceFactor
  else penalty

/-- The inner loop of a perturbed variant pass, threading the random stream:
one draw decides whether to perturb, and if so a second draw picks the
multiplier `0.9 + r * 0.2`. -/
def altInner (wordWidths : List ℚ) (spaceWidth vtw : ℚ) (variant : ℕ)
    (varianceFactor : ℚ) (n i : ℕ) : ℕ → ℕ → ℚ → DPState × Rng → DPState × Rng
  | 0, _, _, s => s
  | fuel + 1, j, width, (st, rng) =>
    if j ≥ n then (st, rng)
    else
      let width := width + wordWidths.getD j 0 + (if j > i then spaceWidth else 0)
      if width > vtw * 1.5 then (st, rng)
      else
        let penalty := altPenalty variant varianceFactor vtw width i j n
        let totalPenalty := addInf (st.penalties i) penalty
        let r1p := rng.next
        let tpr :=
          if r1p.1 < varianceFactor * 0.3 then
            let r2p := r1p.2.next
            (mulInf totalPenalty (0.9 + r2p.1 * 0.2), r2p.2)
          else (totalPenalty, r1p.2)
        let st' :=
          if ltInf tpr.1 (st.penalties (j + 1)) then
            DPState.mk (Function.update st.penalties (j + 1) tpr.1)
              (Function.update st.breaks (j + 1) i)
              (Function.update st.widths (j + 1) width)
          else st
        altInner wordWidths spaceWidth vtw variant varianceFactor n i
          fuel (j + 1) width (st', tpr.2)

/-- One perturbed variant pass: run the alternative dynamic program and
reconstruct its solution as a candidate. -/
def runVariant (words : List String) (wordWidths : List ℚ)
    (spaceWidth targetWidth : ℚ) (n variant : ℕ) (rng : Rng) : Cand × Rng :=
  let varianceFactor : ℚ := 0.1 + (variant : ℚ) * 0.15
  let vtw := variantTargetWidth targetWidth variant varianceFactor
  let p := (List.range n).foldl
    (fun (acc : DPState × Rng) i =>
      altInner wordWidths spaceWidth vtw variant varianceFactor n i (n - i) i 0 acc)
    (dpInit, rng)
  let altSolution := reconstructSolution words p.1.breaks (n + 1) n
  let altLineWidths := calculateLineWidths altSolution wordWidths spaceWidth
  let breakIndices := findBreakIndices altSolution
  (⟨altSolution, breakIndices, p.1.penalties n, altLineWidths⟩, p.2)

/-- The mutable search state of `computeBreaks`: the accepted candidates, the
set of already-generated break patterns (`Set<string>` of comma-joined
indices, modelled as the list of index lists — the join is injective on them),
the random stream, and the current minimum-difference threshold. -/
structure SearchState where
  candidates : List Cand
  patterns : List (List ℤ)
  rng : Rng
  threshold : ℕ

/-- The uniqueness test of `findAlternatives` (lines 533–553): the pattern
must be new, and its difference from every accepted candidate at least the
current threshold. -/
def isUniqueCand (candidates : List Cand) (patterns : List (List ℤ))
    (breakIndices : List ℤ) (totalWords : ℕ) (threshold : ℕ) : Bool :=
  if patterns.contains breakIndices then false
  else candidates.all
    (fun ex => (threshold : ℤ) ≤ breakPatternDifference breakIndices ex.breaks totalWords)

/-- The `for (let variant = 0; ...)` loop of `findAlternatives`: each variant
runs a perturbed pass; a unique solution is appended, and the loop stops early
once `candidateCount` candidates exist.  `fuel` bounds the loop length
(`min 20 (candidateCount * 2)` iterations at most). -/
def variantLoop (words : List String) (wordWidths : List ℚ)
    (spaceWidth targetWidth : ℚ) (candidateCount n : ℕ) :
    ℕ → ℕ → SearchState → SearchState
  | 0, _, s => s
  | fuel + 1, variant, s =>
    if variant ≥ min 20 (candidateCount * 2) then s
    else
      let p := runVariant words wordWidths spaceWidth targetWidth n variant s.rng
      let s1 : SearchState := ⟨s.candidates, s.patterns, p.2, s.threshold⟩
      if isUniqueCand s1.candidates s1.patterns p.1.breaks words.length s1.threshold then
        let s2 : SearchState :=
          ⟨s1.candidates ++ [p.1], s1.patterns ++ [p.1.breaks], s1.rng, s1.threshold⟩
        if s2.candidates.length ≥ candidateCount then s2
        else variantLoop words wordWidths spaceWidth targetWidth candidateCount n
          fuel (variant + 1) s2
      else variantLoop words wordWidths spaceWidth targetWidth candidateCount n
        fuel (variant + 1) s1

/-- `findAlternatives()`: one full sweep of the variant loop. -/
def findAlternatives (words : List String) (wordWidths : List ℚ)
    (spaceWidth targetWidth : ℚ) (candidateCount n : ℕ)
    (s : SearchState) : SearchState :=
  variantLoop words wordWidths spaceWidth targetWidth candidateCount n
    (min 20 (candidateCount * 2)) 0 s

/-- The `while (candidates.length < candidateCount && attemptCount < 10)`
loop, with the threshold relaxation after the fifth attempt. -/
def attemptLoop (words : List String) (wordWidths : List ℚ)
    (spaceWidth targetWidth : ℚ) (candidateCount n : ℕ) :
    ℕ → ℕ → SearchState → SearchState
  | 0, _, s => s
  | fuel + 1, attemptCount, s =>
    if s.candidates.length < candidateCount ∧ attemptCount < 10 then
      let s1 := findAlternatives words wordWidths spaceWidth targetWidth
        candidateCount n s
      let attemptCount' := attemptCount + 1
      let s2 :=
        if attemptCount' > 5 ∧ s1.candidates.length < candidateCount then
          SearchState.mk s1.candidates s1.patterns s1.rng (max 1 (s1.threshold - 1))
        else s1
      attemptLoop words wordWidths spaceWidth targetWidth candidateCount n
        fuel attemptCount' s2
    else s

/-- The second `computeBreaks` of `optimize_linebreaks.js` (the Knuth–Plass
style dynamic program with diversity search).  The ambient `Math.random()` is
passed in as an explicit stream; everything else follows the source: input
validation, the main DP, the diversity search, and the final stable ascending
sort by score. -/
def computeBreaks (words : List String) (wordWidths : List ℚ)
    (spaceWidth targetWidth : ℚ) (candidateCount : ℕ)
    (bf mfr : ℚ) (mode : String) (rng : Rng) : List Cand :=
  if words.length ≠ wordWidths.length then []
  else if words.length = 0 then []
  else
    let minDifferenceThreshold : ℕ :=
      if words.length > 20 then 8 else if words.length > 10 then 5 else 3
    let n := words.length
    let st := mainDP wordWidths spaceWidth targetWidth bf mfr mode n
    let bestSolution := reconstructSolution words st.breaks (n + 1) n
    let bestLineWidths := calculateLineWidths bestSolution wordWidths spaceWidth
    let best : Cand :=
      ⟨bestSolution, findBreakIndices bestSolution, st.penalties n, bestLineWidths⟩
    let s0 : SearchState := ⟨[best], [best.breaks], rng, minDifferenceThreshold⟩
    let s := attemptLoop words wordWidths spaceWidth targetWidth candidateCount n
      11 0 s0
    s.candidates.insertionSort (fun a b => leInf a.score b.score = true)

/-- The normalized score breakdown returned by `calculateScoreBreakdown`.
The `score` field is `none` in the empty-input early return, where the
JavaScript object simply lacks the field. -/
structure BreakdownV2 where
  raggedness : ℝ
  evenness : ℝ
  fillRatio : ℚ
  widows : ℕ
  orphans : ℕ
  protectedBreaks : ℕ
  balanceFactor : ℚ
  score : Option ℝ

/-- The function-word list of `calculateScoreBreakdown` (articles,
prepositions, conjunctions). -/
def functionWordsV2 : List String :=
  ["a", "an", "the",
   "of", "to", "in", "for", "with", "by", "at", "from", "on", "about",
   "and", "but", "or", "nor", "so", "yet", "as"]

/-- The unit names of the numeral-plus-unit check, matched case-insensitively
(`/^(px|em|%|kg|lb|ft|in|cm|mm|m|s|ms|gb|mb|kb)$/i`). -/
def unitNamesV2 : List String :=
  ["px", "em", "%", "kg", "lb", "ft", "in", "cm", "mm", "m", "s", "ms",
   "gb", "mb", "kb"]

/-- `lastWord.toLowerCase().replace(/[,.;:!?]$/, '')`: strip one trailing
punctuation character. -/
def stripTrailingPunct (s : String) : String :=
  match s.data.getLast? with
  | some c => if c ∈ [',', '.', ';', ':', '!', '?'] then String.mk s.data.dropLast else s
  | none => s

/-- `/^\d+$/`. -/
def isAllDigits (s : String) : Bool :=
  s.data ≠ [] && s.data.all (fun c => '0' ≤ c ∧ c ≤ '9')

/-- The protected-break counting loop of `calculateScoreBreakdown` (lines
763–789): function words at a line end, line-final hyphens, and a numeral
separated from its unit. -/
def countProtectedBreaksV2 (lines : List (List String)) : ℕ :=
  (List.range (lines.length - 1)).foldl
    (fun count i =>
      let line := lines.getD i []
      if line.length > 0 then
        let lastWord := stripTrailingPunct (jsToLower (line.getLastD ""))
        let count := if functionWordsV2.contains lastWord then count + 1 else count
        let count := if lastWord.endsWith "-" then count + 1 else count
        if (lines.getD (i + 1) []).length > 0 then
          if isAllDigits lastWord ∧
              unitNamesV2.contains (jsToLower ((lines.getD (i + 1) []).headD "")) then
            count + 1
          else count
        else count
      else count)
    0

/-- `calculateScoreBreakdown(lines, lineWidths, targetWidth, balanceFactor)`.
`Math.sqrt` is modelled by `Real.sqrt`, so the normalized metrics live in
`ℝ`; all other arithmetic is exact rational arithmetic cast into `ℝ`. -/
noncomputable def calculateScoreBreakdown (lines : List (List String))
    (lineWidths : List ℚ) (targetWidth bf : ℚ) : BreakdownV2 :=
  if lines.length = 0 ∨ lineWidths.length = 0 then
    ⟨0, 100, 100, 0, 0, 0, bf, none⟩
  else
    -- raggedness over all lines but the last (slice(0, -1))
    let raggedLinesToMeasure : List ℚ :=
      if lineWidths.length > 1 then lineWidths.dropLast else []
    let totalSquaredDeviation : ℝ :=
      raggedLinesToMeasure.foldl
        (fun (acc : ℝ) (w : ℚ) =>
          acc + (|(targetWidth : ℝ) - (w : ℝ)| / (targetWidth : ℝ)) ^ 2) 0
    let normalizedRaggedness : ℝ :=
      if raggedLinesToMeasure.length = 0 then 0
      else min 100
        (Real.sqrt (totalSquaredDeviation / (raggedLinesToMeasure.length : ℝ)) * 100)
    -- evenness from the coefficient of variation of all line widths
    let avgLineWidth : ℝ :=
      ((lineWidths.foldl (fun s w => s + w) 0 : ℚ) : ℝ) / (lineWidths.length : ℝ)
    let sumOfSquaredDifferences : ℝ :=
      lineWidths.foldl (fun (s : ℝ) (w : ℚ) => s + ((w : ℝ) - avgLineWidth) ^ 2) 0
    let variance := sumOfSquaredDifferences / (lineWidths.length : ℝ)
    let stdDev := Real.sqrt variance
    let coefficientOfVariation : ℝ := if avgLineWidth > 0 then stdDev / avgLineWidth else 0
    let normalizedEvenness : ℝ := max 0 (min 100 (100 - coefficientOfVariation * 300))
    -- fill ratio over all lines but the last (all lines when there is one)
    let fillLinesToMeasure : List ℚ :=
      if lineWidths.length > 1 then lineWidths.dropLast else lineWidths
    let totalAvailableWidth : ℚ := (fillLinesToMeasure.length : ℚ) * targetWidth
    let totalWidth : ℚ := fillLinesToMeasure.foldl (fun s w => s + min w targetWidth) 0
    let avgFillRatio : ℚ :=
      if totalAvailableWidth > 0 then totalWidth / totalAvailableWidth * 100 else 100
    let widowCount : ℕ :=
      if lines.length > 1 ∧ (lines.getLastD []).length = 1 then 1 else 0
    let orphanCount : ℕ :=
      if lines.length > 0 ∧ (lines.headD []).length = 1 then 1 else 0
    let protectedBreaks := countProtectedBreaksV2 lines
    let raggednessPenalty := normalizedRaggedness * 0.5
    let evennessPenalty := (100 - normalizedEvenness) * 0.3
    let fillPenalty : ℚ := (100 - avgFillRatio) * 0.2
    let balancedRaggednessPenalty := raggednessPenalty * (bf : ℝ)
    let balancedEvennessPenalty := evennessPenalty * (1 - (bf : ℝ))
    let widowPenalty : ℕ := widowCount * 15
    let orphanPenalty : ℕ := orphanCount * 10
    let protectedBreakPenalty : ℕ := protectedBreaks * 8
    let finalScore : ℝ :=
      balancedRaggednessPenalty + balancedEvennessPenalty + (fillPenalty : ℝ) +
      (widowPenalty : ℝ) + (orphanPenalty : ℝ) + (protectedBreakPenalty : ℝ)
    ⟨normalizedRaggedness, normalizedEvenness, avgFillRatio, widowCount,
     orphanCount, protectedBreaks, bf, some finalScore⟩

/-- The predecessor-array invariant of the dynamic program: every positive
index points strictly backwards. -/
def PtrInv (B : ℕ → ℕ) : Prop := ∀ j, 1 ≤ j → B j < j

/-- The partition property of a single candidate of the dynamic-programming
generator. -/
def CandProp (words : List String) (c : Cand) : Prop :=
  c.lines.flatten = words ∧ (∀ l ∈ c.lines, l ≠ []) ∧
  c.breaks.Chain' (· < ·) ∧ c.lineWidths.length = c.lines.length

end LB2

namespace RE

/-- A word-metrics token as consumed by the rule engine: the rule passes read
only `text` and `separator` and write only `lineBreaking` and
`_violationReason`. -/
structure Token where
  text : String
  separator : String
  lineBreaking : Option String
  violationReason : Option String
  deriving DecidableEq, Repr

/-- The `rules` sub-object of a locale rule configuration; a missing
directional list behaves like an empty one (`rules?.avoidBreakX?.includes`
is falsy when the list is absent). -/
structure Rules where
  avoidBreakBefore : List String
  avoidBreakAfter : List String
  avoidBreakBetween : List String
  deriving DecidableEq, Repr

/-- A locale rule configuration as destructured by the rule engine
(`const { locale, rules, functionWords, fixedExpressions, appleServices,
periods } = ruleConfig || {}`, plus `ruleConfig.punctuation`); `none` models
an absent field. -/
structure RuleCfg where
  locale : Option String
  rules : Option Rules
  functionWords : Option (List String)
  fixedExpressions : Option (List String)
  appleServices : Option (List String)
  periods : Option (List String)
  punctuation : Option (List String)
  deriving DecidableEq, Repr

/-- The directional rule list of a config, empty when `rules` or the list is
absent. -/
def before (cfg : RuleCfg) : List String := (cfg.rules.map Rules.avoidBreakBefore).getD []

def after (cfg : RuleCfg) : List String := (cfg.rules.map Rules.avoidBreakAfter).getD []

def between (cfg : RuleCfg) : List String := (cfg.rules.map Rules.avoidBreakBetween).getD []

def emptyToken : Token := ⟨"", "", none, none⟩

/-- `annotateLineBreakingWithSeparators`, per token: starting from the
existing disposition (default `'allow'`), mark `'avoid'` after a hyphen-like
separator (when the `hyphen` after-rule is active) and before a period token
(when the `period` before-rule is active and a `periods` list is present). -/
def annotateTok (arr : List Token) (cfg : RuleCfg) (i : ℕ) (token : Token) : Token :=
  let lineBreaking :=
    match token.lineBreaking with
    | none => "allow"
    | some s => if s = "" then "allow" else s
  let lineBreaking :=
    if i < arr.length - 1 ∧ (after cfg).contains "hyphen" ∧
        (token.separator = "-" ∨ token.separator = "‑") then
      "avoid"
    else lineBreaking
  let lineBreaking :=
    if i < arr.length - 1 ∧ (before cfg).contains "period" ∧ cfg.periods.isSome ∧
        (cfg.periods.getD []).contains ((arr.getD (i + 1) emptyToken).text) then
      "avoid"
    else lineBreaking
  { token with lineBreaking := some lineBreaking }

/-- `annotateLineBreakingWithSeparators(wordMetricsArray, ruleConfig)`: a map
over the tokens; the callback reads its neighbour out of the original array
(the third argument of `Array.prototype.map`). -/
def annotateLineBreakingWithSeparators (arr : List Token) (cfg : RuleCfg) : List Token :=
  arr.mapIdx (annotateTok arr cfg)

/-- JavaScript `String.prototype.includes`. -/
def strIncludes (s sub : String) : Bool :=
  (List.range (s.data.length + 1)).any (fun i => sub.data.isPrefixOf (s.data.drop i))

/-- A violation `[index, violatedPair, reason]`; the violated pair is recorded
as the two token texts (the JavaScript formats them into a quoted string). -/
structure Violation where
  index : ℕ
  pair : String × String
  reason : String
  deriving DecidableEq, Repr

/-- The projection of a token that the rule passes read. -/
def proj (t : Token) : String × String := (t.text, t.separator)

/-- `isFunctionWord`. -/
def isFunctionWord (cfg : RuleCfg) (w : String) : Bool :=
  (cfg.functionWords.getD []).contains (jsToLower w)

/-- `isHyphen` on a separator. -/
def isHyphen (sep : String) : Bool := sep = "-" ∨ sep = "‑"

/-- `REGEX_PATTERNS.NUMERIC` (`/^\d+$/`). -/
def isNumeric (w : String) : Bool := LB2.isAllDigits w

def isUpperSpanish (c : Char) : Bool :=
  ('A' ≤ c ∧ c ≤ 'Z') ∨ c ∈ ['Á', 'É', 'Í', 'Ó', 'Ú', 'Ñ']

def isLowerSpanish (c : Char) : Bool :=
  ('a' ≤ c ∧ c ≤ 'z') ∨ c ∈ ['á', 'é', 'í', 'ó', 'ú', 'ñ']

/-- `REGEX_PATTERNS.PROPER_NOUN` (`/^[A-ZÁÉÍÓÚÑ][a-záéíóúñ]+$/`). -/
def isProperNoun (w : String) : Bool :=
  match w.data with
  | [] => false
  | c :: rest => isUpperSpanish c && rest ≠ [] && rest.all isLowerSpanish

/-- `REGEX_PATTERNS.SCORE_PATTERN` (`/^(Punkte|punkt|Punkte\.)$/i`). -/
def isScoreWord (w : String) : Bool :=
  jsToLower w ∈ (["punkte", "punkt", "punkte."] : List String)

/-- `isFixedExpressionOrAppleService(curr, next, separator)`.  `regexTest e c`
models `new RegExp('^' + e + '$', 'i').test(c)` — a pure function of the
pattern and candidate strings, passed in abstractly.  The source checks the
direct service-name match twice in a row; one occurrence suffices. -/
def isFixedExpressionOrAppleService (regexTest : String → String → Bool)
    (cfg : RuleCfg) (currText sep nextText : String) : Bool :=
  let combined := currText ++ sep ++ nextText
  ((cfg.fixedExpressions.getD []).any (fun expr => regexTest expr combined)) ||
  ((cfg.appleServices.getD []).any (fun service =>
    jsToLower service = jsToLower combined ||
    (jsToLower service).startsWith (jsToLower combined ++ " ")))

/-- One in-place write of the rule engine: set `lineBreaking := 'avoid'` and
`_violationReason := reason` at a position (out-of-range writes are no-ops,
matching the source's explicit bound checks). -/
def listModify {α : Type} (l : List α) (i : ℕ) (f : α → α) : List α :=
  l.mapIdx (fun k x => if k = i then f x else x)

def applyWrite (arr : List Token) (w : ℕ × String) : List Token :=
  listModify arr w.1 (fun t =>
    { t with lineBreaking := some "avoid", violationReason := some w.2 })

def applyWrites (arr : List Token) (ws : List (ℕ × String)) : List Token :=
  ws.foldl applyWrite arr

/-- The multi-word service scan of `applySegmentationRules` (lines 152–197):
for each service of at least two words, every window of matching token texts
yields one violation per adjacent pair and a direct `avoid` write on every
token of the window. -/
def appleScan (ts : List (String × String)) (cfg : RuleCfg) :
    List Violation × List (ℕ × String) :=
  (cfg.appleServices.getD []).foldl
    (fun acc service =>
      let serviceParts := service.splitOn " "
      if serviceParts.length < 2 then acc
      else
        (List.range (ts.length - serviceParts.length + 1)).foldl
          (fun acc i =>
            let isMatch := (List.range serviceParts.length).all (fun j =>
              i + j < ts.length ∧
              jsToLower (ts.getD (i + j) ("", "")).1 =
                jsToLower (serviceParts.getD j ""))
            if isMatch then
              (acc.1 ++ (List.range (serviceParts.length - 1)).map (fun j =>
                ⟨i + j, ((ts.getD (i + j) ("", "")).1, (ts.getD (i + j + 1) ("", "")).1),
                 "Avoid break in Apple service name (" ++ service ++ ")"⟩),
               acc.2 ++ (List.range serviceParts.length).filterMap (fun j =>
                 if i + j < ts.length then
                   some (i + j, "Apple service: " ++ service)
                 else none))
            else acc)
          acc)
    ([], [])

/-- The direct `"Apple" "Music"` scan (lines 199–209). -/
def appleMusicScan (ts : List (String × String)) : List Violation :=
  (List.range (ts.length - 1)).foldl
    (fun acc i =>
      if (ts.getD i ("", "")).1 = "Apple" ∧ (ts.getD (i + 1) ("", "")).1 = "Music" then
        acc ++ [⟨i, ("Apple", "Music"), "Avoid break in Apple Music (prioritized)"⟩]
      else acc)
    []

/-- `markAppleServiceWordsAsAvoid`: every Apple-related violation marks its
index and its successor. -/
def markWrites (violations : List Violation) : List (ℕ × String) :=
  violations.flatMap (fun v =>
    if strIncludes v.reason "Apple service" || strIncludes v.reason "Apple Music" then
      [(v.index, v.reason), (v.index + 1, v.reason)]
    else [])

/-- One iteration of the adjacent-pair loop (lines 235–309): the violations it
pushes, in source order, and the punctuation writes it performs. -/
def pairStep (regexTest : String → String → Bool) (cfg : RuleCfg)
    (ts : List (String × String)) (i : ℕ) :
    List Violation × List (ℕ × String) :=
  let curr := ts.getD i ("", "")
  let next := ts.getD (i + 1) ("", "")
  let separator := curr.2
  let vs : List Violation :=
    (if (after cfg).contains "hyphen" ∧ isHyphen separator then
      [⟨i, (curr.1, next.1), "Avoid break in hyphenated compound"⟩] else []) ++
    (if ((between cfg).contains "fixedExpressions" ∨
         (between cfg).contains "appleServices") ∧
        isFixedExpressionOrAppleService regexTest cfg curr.1 separator next.1 then
      [⟨i, (curr.1, next.1), "Avoid break in fixed expression/Apple service"⟩] else []) ++
    (if (before cfg).contains "articles" ∧ isFunctionWord cfg next.1 then
      [⟨i, (curr.1, next.1), "Avoid break before function word"⟩] else []) ++
    (if cfg.locale = some "fr" ∧ (before cfg).contains "articles" ∧
        cfg.functionWords.isSome ∧
        (cfg.functionWords.getD []).contains (jsToLower next.1) then
      [⟨i, (curr.1, next.1), "Avoid break before French article/function word"⟩] else []) ++
    (if (between cfg).contains "properNounSequence" ∧ isProperNoun curr.1 ∧
        isProperNoun next.1 then
      [⟨i, (curr.1, next.1), "Avoid break in name/brand"⟩] else []) ++
    (if isNumeric curr.1 ∧ isScoreWord next.1 then
      [⟨i, (curr.1, next.1), "Avoid break in score"⟩] else []) ++
    (if (before cfg).contains "period" ∧ cfg.periods.isSome ∧
        (cfg.periods.getD []).contains next.1 then
      [⟨i, (curr.1, next.1), "Do not break before period"⟩] else []) ++
    (if (before cfg).contains "punctuation" ∧ cfg.punctuation.isSome ∧
        (cfg.punctuation.getD []).contains next.1 then
      [⟨i, (curr.1, next.1), "Do not break before punctuation"⟩] else [])
  let ws : List (ℕ × String) :=
    (if (before cfg).contains "punctuation" ∧ cfg.punctuation.isSome ∧
        (cfg.punctuation.getD []).contains next.1 then
      [(i + 1, "Punctuation")] else []) ++
    (if cfg.punctuation.isSome ∧ (cfg.punctuation.getD []).contains curr.1 then
      [(i, "Standalone punctuation")] else [])
  (vs, ws)

/-- The whole adjacent-pair loop. -/
def pairLoop (regexTest : String → String → Bool) (cfg : RuleCfg)
    (ts : List (String × String)) : List Violation × List (ℕ × String) :=
  (List.range (ts.length - 1)).foldl
    (fun acc i =>
      let s := pairStep regexTest cfg ts i
      (acc.1 ++ s.1, acc.2 ++ s.2))
    ([], [])

/-- `applySegmentationRules(wordMetricsArray, ruleConfig)`: the service scans
and the pair loop read only the token texts and separators; the function
returns the mutated token array together with the violation list.  The
Apple-service scan only runs when the `appleServices` between-rule is active
and a service list is present. -/
def applySegmentationRules (regexTest : String → String → Bool)
    (arr : List Token) (cfg : RuleCfg) : List Token × List Violation :=
  let ts := arr.map proj
  let apple :=
    if (between cfg).contains "appleServices" ∧ cfg.appleServices.isSome then
      (appleScan ts cfg).1 ++ appleMusicScan ts
    else []
  let appleWs :=
    if (between cfg).contains "appleServices" ∧ cfg.appleServices.isSome then
      (appleScan ts cfg).2
    else []
  let pair := pairLoop regexTest cfg ts
  (applyWrites arr (appleWs ++ markWrites apple ++ pair.2), apple ++ pair.1)

/-- The value written at a position by the latest write covering it (if any). -/
def stampTok : Option String → Token → Token
  | none, t => t
  | some r, t => { t with lineBreaking := some "avoid", violationReason := some r }

/-- The reason of the last write at index `k` in a write list. -/
def lastW (ws : List (ℕ × String)) (k : ℕ) : Option String :=
  (ws.reverse.find? (fun w => w.1 = k)).map (·.2)

end RE

namespace LCM

/-!
## Locale configuration manager (`src/localization/LocaleConfigManager.js`)

`getConfig` resolves a locale to a full configuration with fallback: a cache
lookup first, then the rule registry, then the registry entry for the
fallback locale `"en"`, then a synthesized default.  JS objects with possibly
missing keys are modelled as `PartialCfg`/`PartialRules` with `Option`
fields; the object-spread merge in `normalizeConfig` becomes a per-field
`Option.getD`.  The `Map` cache is an association list where `set` conses in
front (the most recent binding wins on lookup).
-/
structure PartialRules where
  avoidBreakBefore : Option (List String)
  avoidBreakAfter : Option (List String)
  avoidBreakBetween : Option (List String)
  specialCases : Option (List (String × String))
  deriving DecidableEq

structure Rules where
  avoidBreakBefore : List String
  avoidBreakAfter : List String
  avoidBreakBetween : List String
  specialCases : List (String × String)
  deriving DecidableEq

structure PartialCfg where
  locale : Option String
  rules : Option PartialRules
  functionWords : Option (List String)
  prepositions : Option (List String)
  appleServices : Option (List String)
  appGameNames : Option (List String)
  fixedExpressions : Option (List String)
  percentSymbols : Option (List String)
  unitsOfMeasure : Option (List String)
  punctuation : Option (List String)
  periods : Option (List String)
  adjectives : Option (List String)
  personNamePrefixes : Option (List String)
  deriving DecidableEq

structure Cfg where
  locale : String
  rules : Rules
  functionWords : List String
  prepositions : List String
  appleServices : List String
  appGameNames : List String
  fixedExpressions : List String
  percentSymbols : List String
  unitsOfMeasure : List String
  punctuation : List String
  periods : List String
  adjectives : List String
  personNamePrefixes : List String
  deriving DecidableEq

/-- `createDefaultConfig` (LocaleConfigManager.js lines 90–111). -/
def createDefaultConfig (locale : String) : Cfg :=
  { locale := locale
    rules := ⟨[], [], [], []⟩
    functionWords := []
    prepositions := []
    appleServices := []
    appGameNames := []
    fixedExpressions := []
    percentSymbols := ["%"]
    unitsOfMeasure := []
    punctuation := [".", ":", ";", "!", "?", "…"]
    periods := ["."]
    adjectives := []
    personNamePrefixes := [] }

/-- View a full config as a JS object in which every key is present. -/
def Cfg.toPartial (c : Cfg) : PartialCfg :=
  { locale := some c.locale
    rules := some ⟨some c.rules.avoidBreakBefore, some c.rules.avoidBreakAfter,
                   some c.rules.avoidBreakBetween, some c.rules.specialCases⟩
    functionWords := some c.functionWords
    prepositions := some c.prepositions
    appleServices := some c.appleServices
    appGameNames := some c.appGameNames
    fixedExpressions := some c.fixedExpressions
    percentSymbols := some c.percentSymbols
    unitsOfMeasure := some c.unitsOfMeasure
    punctuation := some c.punctuation
    periods := some c.periods
    adjectives := some c.adjectives
    personNamePrefixes := some c.personNamePrefixes }

/-- `normalizeConfig` (lines 119–130): `{...defaultConfig, ...config,
rules: {...defaultConfig.rules, ...(config.rules || \x7b\x7d)}}` — every key
present in `config` overrides the default, and the `rules` sub-object is
merged key by key. -/
def normalizeConfig (config : PartialCfg) (locale : String) : Cfg :=
  let d := createDefaultConfig locale
  let pr := config.rules.getD ⟨none, none, none, none⟩
  { locale := config.locale.getD d.locale
    rules := ⟨pr.avoidBreakBefore.getD d.rules.avoidBreakBefore,
              pr.avoidBreakAfter.getD d.rules.avoidBreakAfter,
              pr.avoidBreakBetween.getD d.rules.avoidBreakBetween,
              pr.specialCases.getD d.rules.specialCases⟩
    functionWords := config.functionWords.getD d.functionWords
    prepositions := config.prepositions.getD d.prepositions
    appleServices := config.appleServices.getD d.appleServices
    appGameNames := config.appGameNames.getD d.appGameNames
    fixedExpressions := config.fixedExpressions.getD d.fixedExpressions
    percentSymbols := config.percentSymbols.getD d.percentSymbols
    unitsOfMeasure := config.unitsOfMeasure.getD d.unitsOfMeasure
    punctuation := config.punctuation.getD d.punctuation
    periods := config.periods.getD d.periods
    adjectives := config.adjectives.getD d.adjectives
    personNamePrefixes := config.personNamePrefixes.getD d.personNamePrefixes }

/-- JS property lookup `obj[key]` on an object modelled as an association
list (`undefined` becomes `none`). -/
def lookupA {α : Type} (l : List (String × α)) (k : String) : Option α :=
  (l.find? (fun p => p.1 = k)).map (·.2)

/-- `getConfig` (lines 58–83).  State is `(configs, cache)`; the result is
the resolved config together with the updated cache. -/
def getConfig (configs : List (String × PartialCfg)) (cache : List (String × Cfg))
    (locale : String) : Cfg × List (String × Cfg) :=
  match lookupA cache locale with
  | some c => (c, cache)
  | none =>
    let config : PartialCfg :=
      match lookupA configs locale with
      | some c => c
      | none =>
        if locale = "en" then (createDefaultConfig locale).toPartial
        else
          match lookupA configs "en" with
          | some c => c
          | none => (createDefaultConfig locale).toPartial
    let c := normalizeConfig config locale
    (c, (locale, c) :: cache)

end LCM

namespace LLB

/-!
## Localized candidate filtering (`src/localized_line_breaking.js`)

`filterCandidatesByLocalizationRules` (lines 53–97) looks up the rule set
for a locale (`getLineBreakingRules` returns `ruleEngine[locale] || null`,
modelled as an oracle `String → Option Rules`) and, when rules exist, keeps
exactly the candidates none of whose break indices violates the hyphen /
function-word / compound checks.  `createLocalizedLineBreakOptimizer`
(lines 111–146) wraps an optimizer and applies the filter only when the
locale is non-empty and not `"en"`. -/
structure RuleLists where
  avoidBreakBefore : Option (List String)
  avoidBreakAfter : Option (List String)
  avoidBreakWithin : Option (List String)
  deriving DecidableEq

structure Rules where
  rules : Option RuleLists
  functionWords : Option (List String)
  deriving DecidableEq

/-- The body of the `for (const breakIdx of breaks)` loop: does this break
index trigger any of the three rule checks?  Out-of-range indices are
skipped (`continue`). -/
def violates (rl : RuleLists) (fw : Option (List String)) (words : List String)
    (breakIdx : ℤ) : Bool :=
  if breakIdx ≤ 0 ∨ (words.length : ℤ) - 1 ≤ breakIdx then false
  else
    let prevWord := words.getD breakIdx.toNat ""
    let nextWord := words.getD (breakIdx.toNat + 1) ""
    ((rl.avoidBreakAfter.getD []).contains "hyphen" && prevWord.endsWith "-")
    || ((rl.avoidBreakBefore.getD []).contains "articles"
        && (fw.getD []).contains (jsToLower nextWord))
    || ((rl.avoidBreakWithin.getD []).contains "compounds"
        && (prevWord.endsWith "-" || nextWord.startsWith "-"))

/-- `filterCandidatesByLocalizationRules` (lines 53–97). -/
def filterCandidatesByLocalizationRules (reg : String → Option Rules)
    (candidates : List LB2.Cand) (words : List String) (locale : String) :
    List LB2.Cand :=
  match reg locale with
  | none => candidates
  | some rules =>
    match rules.rules with
    | none => candidates
    | some rl =>
      candidates.filter (fun c => ! (c.breaks.any (violates rl rules.functionWords words)))

/-- `createLocalizedLineBreakOptimizer` (lines 111–146).  The unused
`debugElement` argument is dropped; `locale &&` is JS string truthiness,
i.e. `locale ≠ ""`. -/
def createLocalizedLineBreakOptimizer (reg : String → Option Rules)
    (originalOptimizer : List String → List ℚ → ℚ → ℚ → ℕ → ℚ → ℚ → String → List LB2.Cand)
    (words : List String) (wordWidths : List ℚ) (spaceWidth targetWidth : ℚ)
    (candidateCount : ℕ) (balanceFactor minFillRatio : ℚ) (mode locale : String) :
    List LB2.Cand :=
  let candidates := originalOptimizer words wordWidths spaceWidth targetWidth
    candidateCount balanceFactor minFillRatio mode
  if locale ≠ "" ∧ locale ≠ "en" then
    filterCandidatesByLocalizationRules reg candidates words locale
  else candidates

end LLB

namespace LB1

/-- Every `end` position kept by the loop lies in `[e, n)` and its line width
satisfies the acceptance condition. -/
theorem scanEnds_mem (wordWidths : List ℚ) (spaceWidth targetWidth bf mfr : ℚ)
    (n start : ℕ) : ∀ fuel e e',
    e' ∈ scanEnds wordWidths spaceWidth targetWidth bf mfr n start fuel e →
    (e ≤ e' ∧ e' < n) ∧
    targetWidth * mfr ≤ calcWidth wordWidths spaceWidth start e' ∧
    calcWidth wordWidths spaceWidth start e' ≤ targetWidth * (1 + bf) := by
  intro fuel
  induction fuel with
  | zero =>
    intro e e' he'
    exact absurd he' (List.not_mem_nil _)
  | succ fuel ih =>
    intro e e' he'
    rw [scanEnds] at he'
    by_cases h : e ≥ n
    · rw [if_pos h] at he'
      exact absurd he' (List.not_mem_nil _)
    · rw [if_neg h] at he'
      simp only [List.mem_append] at he'
      rcases he' with h1 | h2
      · by_cases hc : targetWidth * mfr ≤ calcWidth wordWidths spaceWidth start e ∧
            calcWidth wordWidths spaceWidth start e ≤ targetWidth * (1 + bf)
        · rw [if_pos hc] at h1
          rcases List.mem_singleton.mp h1 with rfl
          exact ⟨⟨le_refl _, by omega⟩, hc⟩
        · rw [if_neg hc] at h1
          exact absurd h1 (List.not_mem_nil _)
      · by_cases hb : calcWidth wordWidths spaceWidth start e > targetWidth * (1 + bf)
        · rw [if_pos hb] at h2
          exact absurd h2 (List.not_mem_nil _)
        · rw [if_neg hb] at h2
          have := ih (e + 1) e' h2
          exact ⟨⟨by omega, this.1.2⟩, this.2⟩

theorem lastPlusOne_append (cb : List ℕ) (e : ℕ) :
    lastPlusOne (cb ++ [e]) = e + 1 := by
  simp [lastPlusOne]

theorem segsOK_append (wordWidths : List ℚ) (spaceWidth targetWidth bf mfr : ℚ) :
    ∀ (cb : List ℕ) (prev e : ℕ),
    segsOK wordWidths spaceWidth targetWidth bf mfr prev cb →
    (targetWidth * mfr ≤
       calcWidth wordWidths spaceWidth (match cb.getLast? with | none => prev | some b => b + 1) e ∧
     calcWidth wordWidths spaceWidth (match cb.getLast? with | none => prev | some b => b + 1) e ≤
       targetWidth * (1 + bf)) →
    segsOK wordWidths spaceWidth targetWidth bf mfr prev (cb ++ [e]) := by
  intro cb
  induction cb with
  | nil =>
    intro prev e _ hnew
    exact ⟨hnew, trivial⟩
  | cons b rest ih =>
    intro prev e hseg hnew
    refine ⟨hseg.1, ih (b + 1) e hseg.2 ?_⟩
    cases rest with
    | nil => exact hnew
    | cons b' rest' =>
      simpa using hnew

theorem buildLines_cons (words : List String) (wordWidths : List ℚ) (spaceWidth : ℚ)
    (prev b : ℕ) (rest : List ℕ) :
    buildLines words wordWidths spaceWidth prev (b :: rest) =
    (jsSlice words prev (b + 1) :: (buildLines words wordWidths spaceWidth (b + 1) rest).1,
     calcWidth wordWidths spaceWidth prev b ::
       (buildLines words wordWidths spaceWidth (b + 1) rest).2) := rfl

/-- A slice `[prev, b]` with `prev ≤ b < words.length` is non-empty. -/
theorem jsSlice_ne_nil (words : List String) (prev b : ℕ)
    (h1 : prev ≤ b) (h2 : b < words.length) :
    jsSlice words prev (b + 1) ≠ [] := by
  simp only [jsSlice, ne_eq]
  intro hcontra
  have h1' : ((words.drop prev).take (b + 1 - prev)).length = 0 := by
    rw [hcontra]; rfl
  rw [List.length_take, List.length_drop] at h1'
  omega

/-- The lines rebuilt from a strictly increasing, in-range break list ending at
`words.length - 1` tile the suffix `words.drop prev` with non-empty lines. -/
theorem buildLines_spec (words : List String) (wordWidths : List ℚ) (spaceWidth : ℚ) :
    ∀ (brs : List ℕ) (prev : ℕ),
    brs.Chain' (· < ·) → (∀ b ∈ brs, b < words.length) →
    (∀ b₀, brs.head? = some b₀ → prev ≤ b₀) →
    brs.getLast? = some (words.length - 1) →
    (buildLines words wordWidths spaceWidth prev brs).1.flatten = words.drop prev ∧
    (∀ l ∈ (buildLines words wordWidths spaceWidth prev brs).1, l ≠ []) ∧
    (buildLines words wordWidths spaceWidth prev brs).1.length = brs.length ∧
    (buildLines words wordWidths spaceWidth prev brs).2.length = brs.length := by
  intro brs
  induction brs with
  | nil => intro prev _ _ _ hlast; simp at hlast
  | cons b rest ih =>
    intro prev hchain hbnd hhead hlast
    have hprevb : prev ≤ b := hhead b rfl
    have hbn : b < words.length := hbnd b (List.mem_cons_self _ _)
    rw [buildLines_cons]
    cases rest with
    | nil =>
      have hbl : b = words.length - 1 := by
        simpa [List.getLast?] using hlast
      subst hbl
      refine ⟨?_, ?_, rfl, rfl⟩
      · simp only [buildLines, jsSlice, List.flatten_cons, List.flatten_nil,
          List.append_nil]
        rw [List.take_of_length_le]
        rw [List.length_drop]
        omega
      · intro l hl
        simp only [buildLines, List.mem_singleton] at hl
        subst hl
        exact jsSlice_ne_nil words prev _ hprevb hbn
    | cons b' rest' =>
      have hbb' : b < b' := (List.chain'_cons.mp hchain).1
      have ihres := ih (b + 1) (List.chain'_cons.mp hchain).2
        (fun x hx => hbnd x (List.mem_cons_of_mem _ hx))
        (fun b₀ h => by simp at h; omega)
        (by simpa using hlast)
      refine ⟨?_, ?_, ?_, ?_⟩
      · simp only [List.flatten_cons]
        rw [ihres.1]
        simp only [jsSlice]
        rw [show words.drop (b + 1) = (words.drop prev).drop (b + 1 - prev) by
          rw [List.drop_drop]; congr 1; omega]
        exact List.take_append_drop _ _
      · intro l hl
        simp only [List.mem_cons] at hl
        rcases hl with rfl | hl
        · exact jsSlice_ne_nil words prev _ hprevb hbn
        · exact ihres.2.1 l hl
      · simp [ihres.2.2.1]
      · simp [ihres.2.2.2]

/-- Widths of lines rebuilt from an accepted break list satisfy the acceptance
bounds. -/
theorem buildLines_widths (words : List String) (wordWidths : List ℚ)
    (spaceWidth targetWidth bf mfr : ℚ) :
    ∀ (brs : List ℕ) (prev : ℕ),
    segsOK wordWidths spaceWidth targetWidth bf mfr prev brs →
    ∀ w ∈ (buildLines words wordWidths spaceWidth prev brs).2,
      targetWidth * mfr ≤ w ∧ w ≤ targetWidth * (1 + bf) := by
  intro brs
  induction brs with
  | nil => intro prev _ w hw; simp [buildLines] at hw
  | cons b rest ih =>
    intro prev hseg w hw
    simp only [buildLines, List.mem_cons] at hw
    rcases hw with rfl | hw
    · exact hseg.1
    · exact ih (b + 1) hseg.2 w hw

theorem recurse_sound (words : List String) (wordWidths : List ℚ)
    (spaceWidth targetWidth : ℚ) (mode : String) (bf mfr : ℚ)
    (hne : words ≠ []) :
    ∀ (fuel : ℕ) (cb : List ℕ),
    cb.Chain' (· < ·) → (∀ b ∈ cb, b < words.length) →
    segsOK wordWidths spaceWidth targetWidth bf mfr 0 cb →
    ∀ c ∈ recurse words wordWidths spaceWidth targetWidth mode bf mfr
        fuel (lastPlusOne cb) cb,
      CandOK words targetWidth bf mfr mode c := by
  intro fuel
  induction fuel with
  | zero =>
    intro cb _ _ _ c hc
    exact absurd hc (List.not_mem_nil _)
  | succ fuel ih =>
    intro cb hchain hbnd hseg c hc
    rw [recurse] at hc
    by_cases hbase : lastPlusOne cb ≥ words.length
    · rw [if_pos hbase] at hc
      rcases List.mem_singleton.mp hc with rfl
      -- the accumulated break list is non-empty and ends exactly at the last
      -- token index
      have hn1 : 1 ≤ words.length := List.length_pos.mpr hne
      have hcbne : cb ≠ [] := by
        intro h
        subst h
        have h0 : lastPlusOne ([] : List ℕ) = 0 := rfl
        rw [h0] at hbase
        omega
      have hlast' : cb.getLast hcbne = words.length - 1 := by
        have hmem := List.getLast_mem hcbne
        have h1 := hbnd _ hmem
        have h2 : lastPlusOne cb = cb.getLast hcbne + 1 := by
          simp [lastPlusOne, List.getLast?_eq_getLast _ hcbne]
        omega
      have hlast : cb.getLast? = some (words.length - 1) := by
        rw [List.getLast?_eq_getLast _ hcbne, hlast']
      have hcb_split : cb.dropLast ++ [words.length - 1] = cb := by
        rw [← hlast']
        exact List.dropLast_append_getLast hcbne
      have hspec := buildLines_spec words wordWidths spaceWidth cb 0 hchain hbnd
        (fun _ _ => Nat.zero_le _) hlast
      have hwid := buildLines_widths words wordWidths spaceWidth targetWidth bf mfr
        cb 0 hseg
      -- the emitted candidate's fields
      have hbl : buildLines words wordWidths spaceWidth 0
          ((emitCandidate words wordWidths spaceWidth targetWidth mode cb).breaks ++
            [words.length - 1]) =
          buildLines words wordWidths spaceWidth 0 cb := by
        show buildLines words wordWidths spaceWidth 0
          (cb.dropLast ++ [words.length - 1]) = _
        rw [hcb_split]
      have hlines : (emitCandidate words wordWidths spaceWidth targetWidth mode cb).lines =
          (buildLines words wordWidths spaceWidth 0 cb).1 := by
        show (buildLines words wordWidths spaceWidth 0
          (cb.dropLast ++ [words.length - 1])).1 = _
        rw [hcb_split]
      have hlw : (emitCandidate words wordWidths spaceWidth targetWidth mode cb).lineWidths =
          (buildLines words wordWidths spaceWidth 0 cb).2 := by
        show (buildLines words wordWidths spaceWidth 0
          (cb.dropLast ++ [words.length - 1])).2 = _
        rw [hcb_split]
      have hbreaks : (emitCandidate words wordWidths spaceWidth targetWidth mode cb).breaks =
          cb.dropLast := rfl
      -- pairwise order of the accumulated breaks
      have hpw : cb.Pairwise (· < ·) := List.chain'_iff_pairwise.mp hchain
      have hpw' : (cb.dropLast ++ [words.length - 1]).Pairwise (· < ·) := by
        rw [hcb_split]; exact hpw
      have hblt : ∀ x ∈ cb.dropLast, x < words.length - 1 := by
        intro x hx
        exact (List.pairwise_append.mp hpw').2.2 x hx _ (List.mem_singleton_self _)
      refine ⟨?_, ?_, ?_, ?_, ?_, ?_, rfl, rfl, ?_⟩
      · rw [hbreaks]
        exact List.chain'_iff_pairwise.mpr
          ((List.pairwise_append.mp hpw').1)
      · intro b hb
        rw [hbreaks] at hb
        have := hblt b hb
        omega
      · rw [hlines]
        simpa using hspec.1
      · rw [hlines]
        exact hspec.2.1
      · rw [hlines, hbreaks, hspec.2.2.1]
        have : cb.length = cb.dropLast.length + 1 := by
          rw [List.length_dropLast]
          have := List.length_pos.mpr hcbne
          omega
        omega
      · rw [hlines, hlw, hspec.2.2.1, hspec.2.2.2]
      · rw [hlw]
        exact hwid
    · rw [if_neg hbase] at hc
      simp only [List.mem_flatMap] at hc
      rcases hc with ⟨e, he, hc⟩
      have hem := scanEnds_mem wordWidths spaceWidth targetWidth bf mfr
        words.length (lastPlusOne cb) _ _ _ he
      have hcb' : lastPlusOne (cb ++ [e]) = e + 1 := lastPlusOne_append cb e
      have hchain' : (cb ++ [e]).Chain' (· < ·) := by
        rw [List.chain'_append]
        refine ⟨hchain, List.chain'_singleton _, ?_⟩
        intro x hx y hy
        rcases List.mem_singleton.mp (by simpa using hy) with rfl
        rw [Option.mem_def] at hx
        have hx' : lastPlusOne cb = x + 1 := by
          simp [lastPlusOne, hx]
        omega
      have hbnd' : ∀ b ∈ cb ++ [e], b < words.length := by
        intro b hb
        rcases List.mem_append.mp hb with hb | hb
        · exact hbnd b hb
        · rcases List.mem_singleton.mp hb with rfl
          exact hem.1.2
      have hseg' : segsOK wordWidths spaceWidth targetWidth bf mfr 0 (cb ++ [e]) := by
        apply segsOK_append _ _ _ _ _ cb 0 e hseg
        have : (match cb.getLast? with | none => 0 | some b => b + 1) = lastPlusOne cb := by
          simp [lastPlusOne]
        rw [this]
        exact hem.2
      have := ih (cb ++ [e]) hchain' hbnd' hseg' c (by rw [hcb']; exact hc)
      exact this

/-- Soundness transfers through the stable sort and the truncation of
`generateCandidates`. -/
theorem generateCandidates_sound (words : List String) (wordWidths : List ℚ)
    (spaceWidth targetWidth : ℚ) (candidateCount : ℕ) (mode : String)
    (bf mfr : ℚ) (hne : words ≠ []) :
    ∀ c ∈ generateCandidates words wordWidths spaceWidth targetWidth
        candidateCount mode bf mfr,
      CandOK words targetWidth bf mfr mode c := by
  intro c hc
  have hc1 : c ∈ (recurse words wordWidths spaceWidth targetWidth mode bf mfr
      (words.length + 1) 0 []).insertionSort (fun a b => a.score ≤ b.score) :=
    List.mem_of_mem_take hc
  have hc2 : c ∈ recurse words wordWidths spaceWidth targetWidth mode bf mfr
      (words.length + 1) 0 [] :=
    (List.perm_insertionSort _ _).mem_iff.mp hc1
  have h0 : lastPlusOne ([] : List ℕ) = 0 := rfl
  exact recurse_sound words wordWidths spaceWidth targetWidth mode bf mfr hne
    (words.length + 1) [] List.chain'_nil (by simp) trivial c (by rw [← h0] at hc2; exact hc2)

end LB1

namespace LB2

theorem dpInit_ptr : PtrInv dpInit.breaks := by
  intro j hj
  simpa [dpInit] using hj

/-- A guarded DP-array update at `j + 1` with predecessor `i ≤ j` preserves
the predecessor invariant. -/
theorem ptr_if (c : Prop) [Decidable c] (st : DPState) (p : Option ℚ) (w : ℚ)
    (i j : ℕ) (hij : i ≤ j) (hst : PtrInv st.breaks) :
    PtrInv (if c then
        DPState.mk (Function.update st.penalties (j + 1) p)
          (Function.update st.breaks (j + 1) i)
          (Function.update st.widths (j + 1) w)
      else st).breaks := by
  split
  · intro k hk
    show Function.update st.breaks (j + 1) i k < k
    rw [Function.update_apply]
    split
    · omega
    · exact hst k hk
  · exact hst

theorem innerDP_ptr (wordWidths : List ℚ) (spaceWidth targetWidth bf mfr : ℚ)
    (mode : String) (n i : ℕ) :
    ∀ (fuel j : ℕ) (width : ℚ) (st : DPState), i ≤ j → PtrInv st.breaks →
    PtrInv (innerDP wordWidths spaceWidth targetWidth bf mfr mode n i
      fuel j width st).breaks := by
  intro fuel
  induction fuel with
  | zero => intro j width st _ hst; exact hst
  | succ fuel ih =>
    intro j width st hij hst
    rw [innerDP]
    by_cases h1 : j ≥ n
    · rw [if_pos h1]; exact hst
    · rw [if_neg h1]
      by_cases h2 : width + wordWidths.getD j 0 + (if j > i then spaceWidth else 0) >
          targetWidth * 1.5
      · simp only [h2, if_true]; exact hst
      · simp only [h2, if_false]
        apply ih (j + 1) _ _ (by omega)
        exact ptr_if _ st _ _ i j hij hst

theorem altInner_ptr (wordWidths : List ℚ) (spaceWidth vtw : ℚ) (variant : ℕ)
    (varianceFactor : ℚ) (n i : ℕ) :
    ∀ (fuel j : ℕ) (width : ℚ) (s : DPState × Rng), i ≤ j → PtrInv s.1.breaks →
    PtrInv (altInner wordWidths spaceWidth vtw variant varianceFactor n i
      fuel j width s).1.breaks := by
  intro fuel
  induction fuel with
  | zero => intro j width s _ hst; exact hst
  | succ fuel ih =>
    intro j width s hij hst
    rcases s with ⟨st, rng⟩
    rw [altInner]
    by_cases h1 : j ≥ n
    · rw [if_pos h1]; exact hst
    · rw [if_neg h1]
      by_cases h2 : width + wordWidths.getD j 0 + (if j > i then spaceWidth else 0) >
          vtw * 1.5
      · simp only [h2, if_true]; exact hst
      · simp only [h2, if_false]
        apply ih (j + 1) _ _ (by omega)
        dsimp only
        exact ptr_if _ st _ _ i j hij hst

/-- `PtrInv` is preserved by a `foldl` whose steps preserve it. -/
theorem foldl_dp_ptr {β : Type} (f : DPState → β → DPState)
    (hf : ∀ st b, PtrInv st.breaks → PtrInv (f st b).breaks) :
    ∀ (l : List β) (st : DPState), PtrInv st.breaks → PtrInv (l.foldl f st).breaks := by
  intro l
  induction l with
  | nil => intro st hst; exact hst
  | cons b rest ih => intro st hst; exact ih (f st b) (hf st b hst)

theorem mainDP_ptr (wordWidths : List ℚ) (spaceWidth targetWidth bf mfr : ℚ)
    (mode : String) (n : ℕ) :
    PtrInv (mainDP wordWidths spaceWidth targetWidth bf mfr mode n).breaks :=
  foldl_dp_ptr _
    (fun st i hst =>
      innerDP_ptr wordWidths spaceWidth targetWidth bf mfr mode n i
        (n - i) i 0 st (le_refl _) hst)
    (List.range n) dpInit dpInit_ptr

theorem runVariant_ptr (words : List String) (wordWidths : List ℚ)
    (spaceWidth targetWidth : ℚ) (n variant : ℕ) (rng : Rng) :
    PtrInv ((List.range n).foldl
      (fun (acc : DPState × Rng) i =>
        altInner wordWidths spaceWidth
          (variantTargetWidth targetWidth variant (0.1 + (variant : ℚ) * 0.15))
          variant (0.1 + (variant : ℚ) * 0.15) n i (n - i) i 0 acc)
      (dpInit, rng)).1.breaks := by
  have key : ∀ (l : List ℕ) (acc : DPState × Rng), PtrInv acc.1.breaks →
      PtrInv ((l.foldl
        (fun (acc : DPState × Rng) i =>
          altInner wordWidths spaceWidth
            (variantTargetWidth targetWidth variant (0.1 + (variant : ℚ) * 0.15))
            variant (0.1 + (variant : ℚ) * 0.15) n i (n - i) i 0 acc)
        acc)).1.breaks := by
    intro l
    induction l with
    | nil => intro acc h; exact h
    | cons b rest ih =>
      intro acc h
      exact ih _ (altInner_ptr _ _ _ _ _ n b (n - b) b 0 acc (le_refl _) h)
  exact key _ _ dpInit_ptr

/-- Reading a contiguous index range out of `words` is the corresponding
slice. -/
theorem range'_map_getD (words : List String) :
    ∀ (k a : ℕ), a + k ≤ words.length →
    (List.range' a k).map (fun i => words.getD i "") = (words.drop a).take k := by
  intro k
  induction k with
  | zero => intro a _; simp
  | succ k ih =>
    intro a ha
    have haw : a < words.length := by omega
    rw [List.range'_succ, List.map_cons, ih (a + 1) (by omega),
      List.getD_eq_getElem words "" haw, List.drop_eq_getElem_cons haw,
      List.take_succ_cons]

/-- Under the predecessor invariant, the reconstructed solution tiles the
prefix `words.take j` with non-empty lines. -/
theorem reconstruct_spec (words : List String) (B : ℕ → ℕ) (hB : PtrInv B) :
    ∀ (fuel j : ℕ), j < fuel → j ≤ words.length →
    (reconstructSolution words B fuel j).flatten = words.take j ∧
    (∀ l ∈ reconstructSolution words B fuel j, l ≠ []) := by
  intro fuel
  induction fuel with
  | zero => intro j h; omega
  | succ fuel ih =>
    intro j hfuel hj
    rw [reconstructSolution]
    by_cases hj0 : j = 0
    · subst hj0; simp
    · rw [if_neg hj0]
      have hBj : B j < j := hB j (by omega)
      have ihres := ih (B j) (by omega) (by omega)
      constructor
      · rw [List.flatten_append, ihres.1]
        simp only [List.flatten_cons, List.flatten_nil, List.append_nil]
        rw [range'_map_getD words (j - B j) (B j) (by omega)]
        have htake : words.take j =
            words.take (B j) ++ (words.drop (B j)).take (j - B j) := by
          conv_lhs => rw [show j = B j + (j - B j) by omega]
          rw [List.take_add]
        rw [htake]
      · intro l hl
        rcases List.mem_append.mp hl with hl | hl
        · exact ihres.2 l hl
        · rcases List.mem_singleton.mp hl with rfl
          intro hcontra
          have : ((List.range' (B j) (j - B j)).map
              (fun i => words.getD i "")).length = 0 := by rw [hcontra]; rfl
          simp only [List.length_map, List.length_range'] at this
          omega

/-- `findBreakIndices` on a list of non-empty lines is strictly increasing. -/
theorem findBreakIndices_chain (lines : List (List String))
    (hne : ∀ l ∈ lines, l ≠ []) :
    (findBreakIndices lines).Chain' (· < ·) := by
  unfold findBreakIndices
  have key : ∀ (idxs : List ℕ), (∀ i ∈ idxs, i < lines.length - 1) →
      ∀ (acc : List ℤ) (wc : ℤ), acc.Chain' (· < ·) →
      (∀ x, acc.getLast? = some x → x < wc) →
      ((idxs.foldl
        (fun (acc : List ℤ × ℤ) i =>
          let wordCount := acc.2 + ((lines.getD i []).length : ℤ)
          (acc.1 ++ [wordCount - 1], wordCount)) (acc, wc)).1).Chain' (· < ·) := by
    intro idxs
    induction idxs with
    | nil => intro _ acc wc hch _; exact hch
    | cons i rest ih =>
      intro hidx acc wc hch hlast
      simp only [List.foldl_cons]
      have hi : i < lines.length - 1 := hidx i (List.mem_cons_self _ _)
      have hne' : lines.getD i [] ≠ [] := by
        apply hne
        have hilen : i < lines.length := by omega
        rw [List.getD_eq_getElem lines [] hilen]
        exact List.getElem_mem hilen
      have hlen : 1 ≤ ((lines.getD i []).length : ℤ) := by
        have h0 : (lines.getD i []).length ≠ 0 :=
          fun h => hne' (List.eq_nil_of_length_eq_zero h)
        omega
      have hforms : ((lines[i]?.getD [] : List String)).length =
          (lines.getD i []).length := by
        rw [List.getD_eq_getElem?_getD]
      apply ih (fun x hx => hidx x (List.mem_cons_of_mem _ hx))
      · rw [List.chain'_append]
        refine ⟨hch, List.chain'_singleton _, ?_⟩
        intro x hx y hy
        rw [Option.mem_def] at hx
        rcases List.mem_singleton.mp (by simpa using hy) with rfl
        have := hlast x hx
        omega
      · intro x hx
        rw [List.getLast?_concat] at hx
        rw [Option.some.injEq] at hx
        omega
  exact key _ (by intro i hi; simpa using List.mem_range.mp hi) [] 0
    List.chain'_nil (by intro x hx; simp at hx)

theorem calculateLineWidths_length (lines : List (List String))
    (wordWidths : List ℚ) (spaceWidth : ℚ) :
    (calculateLineWidths lines wordWidths spaceWidth).length = lines.length := by
  simp [calculateLineWidths]

/-- A candidate assembled from a predecessor array satisfying the invariant
has the partition property. -/
theorem assembled_prop (words : List String) (wordWidths : List ℚ)
    (spaceWidth : ℚ) (B : ℕ → ℕ) (hB : PtrInv B) (score : Option ℚ) :
    CandProp words
      ⟨reconstructSolution words B (words.length + 1) words.length,
       findBreakIndices (reconstructSolution words B (words.length + 1) words.length),
       score,
       calculateLineWidths (reconstructSolution words B (words.length + 1) words.length)
         wordWidths spaceWidth⟩ := by
  have hrec := reconstruct_spec words B hB (words.length + 1) words.length
    (by omega) (le_refl _)
  exact ⟨by simpa using hrec.1, hrec.2,
    findBreakIndices_chain _ hrec.2,
    calculateLineWidths_length _ _ _⟩

theorem runVariant_prop (words : List String) (wordWidths : List ℚ)
    (spaceWidth targetWidth : ℚ) (variant : ℕ) (rng : Rng) :
    CandProp words
      (runVariant words wordWidths spaceWidth targetWidth words.length variant rng).1 := by
  have hptr := runVariant_ptr words wordWidths spaceWidth targetWidth
    words.length variant rng
  exact assembled_prop words wordWidths spaceWidth _ hptr _

theorem variantLoop_prop (words : List String) (wordWidths : List ℚ)
    (spaceWidth targetWidth : ℚ) (candidateCount : ℕ) :
    ∀ (fuel variant : ℕ) (s : SearchState),
    (∀ c ∈ s.candidates, CandProp words c) →
    ∀ c ∈ (variantLoop words wordWidths spaceWidth targetWidth candidateCount
        words.length fuel variant s).candidates,
      CandProp words c := by
  intro fuel
  induction fuel with
  | zero => intro variant s hs c hc; exact hs c hc
  | succ fuel ih =>
    intro variant s hs c hc
    rw [variantLoop] at hc
    by_cases h1 : variant ≥ min 20 (candidateCount * 2)
    · rw [if_pos h1] at hc; exact hs c hc
    · rw [if_neg h1] at hc
      have hnewOK : ∀ c ∈ s.candidates ++
          [(runVariant words wordWidths spaceWidth targetWidth
            words.length variant s.rng).1],
          CandProp words c := by
        intro c hc
        rcases List.mem_append.mp hc with hc | hc
        · exact hs c hc
        · rcases List.mem_singleton.mp hc with rfl
          exact runVariant_prop words wordWidths spaceWidth targetWidth
            variant s.rng
      dsimp only at hc
      split at hc
      · split at hc
        · exact hnewOK c hc
        · refine ih (variant + 1) _ ?_ c hc
          exact hnewOK
      · refine ih (variant + 1) _ ?_ c hc
        intro c' hc'
        exact hs c' hc'

theorem attemptLoop_prop (words : List String) (wordWidths : List ℚ)
    (spaceWidth targetWidth : ℚ) (candidateCount : ℕ) :
    ∀ (fuel attemptCount : ℕ) (s : SearchState),
    (∀ c ∈ s.candidates, CandProp words c) →
    ∀ c ∈ (attemptLoop words wordWidths spaceWidth targetWidth candidateCount
        words.length fuel attemptCount s).candidates,
      CandProp words c := by
  intro fuel
  induction fuel with
  | zero => intro attemptCount s hs c hc; exact hs c hc
  | succ fuel ih =>
    intro attemptCount s hs c hc
    rw [attemptLoop] at hc
    split at hc
    · have h1 : ∀ c ∈ (findAlternatives words wordWidths spaceWidth targetWidth
          candidateCount words.length s).candidates, CandProp words c :=
        variantLoop_prop words wordWidths spaceWidth targetWidth candidateCount
          _ 0 s hs
      dsimp only at hc
      split at hc
      · refine ih _ _ ?_ c hc
        intro c' hc'
        exact h1 c' hc'
      · refine ih _ _ ?_ c hc
        intro c' hc'
        exact h1 c' hc'
    · exact hs c hc

/-- Every candidate returned by the dynamic-programming `computeBreaks` has
the partition property. -/
theorem computeBreaks_prop (words : List String) (wordWidths : List ℚ)
    (spaceWidth targetWidth : ℚ) (candidateCount : ℕ) (bf mfr : ℚ)
    (mode : String) (rng : Rng) :
    ∀ c ∈ computeBreaks words wordWidths spaceWidth targetWidth candidateCount
        bf mfr mode rng,
      CandProp words c := by
  intro c hc
  rw [computeBreaks] at hc
  by_cases h1 : words.length ≠ wordWidths.length
  · rw [if_pos h1] at hc; exact absurd hc (List.not_mem_nil _)
  · rw [if_neg h1] at hc
    by_cases h2 : words.length = 0
    · rw [if_pos h2] at hc; exact absurd hc (List.not_mem_nil _)
    · rw [if_neg h2] at hc
      dsimp only at hc
      have hc2 := (List.perm_insertionSort
        (fun (a b : Cand) => leInf a.score b.score = true) _).mem_iff.mp hc
      apply attemptLoop_prop words wordWidths spaceWidth targetWidth
        candidateCount 11 0 _ _ c hc2
      intro c' hc'
      rcases List.mem_singleton.mp hc' with rfl
      exact assembled_prop words wordWidths spaceWidth _
        (mainDP_ptr wordWidths spaceWidth targetWidth bf mfr mode words.length) _

end LB2

/-- **C1**: for every LineCandidate returned by the candidate generator
(`generateCandidates`, and the dynamic-programming `computeBreaks` built on
`reconstructSolution`/`findBreakIndices`) on a non-empty token list, the
`breaks` list is strictly increasing and the derived `lines` partition the
token indices `[0, tokenCount)` into exactly `lines.length` contiguous,
non-empty ranges: concatenating the lines reproduces the original token
sequence exactly and the line token counts sum to `tokenCount`. -/
theorem claim_C1_partition :
    (∀ (words : List String) (wordWidths : List ℚ) (spaceWidth targetWidth : ℚ)
        (candidateCount : ℕ) (mode : String) (bf mfr : ℚ), words ≠ [] →
      ∀ c ∈ LB1.generateCandidates words wordWidths spaceWidth targetWidth
          candidateCount mode bf mfr,
        c.breaks.Chain' (· < ·) ∧ c.lines.flatten = words ∧
        (∀ l ∈ c.lines, l ≠ []) ∧ c.lines.length = c.breaks.length + 1 ∧
        (c.lines.map List.length).sum = words.length) ∧
    (∀ (words : List String) (wordWidths : List ℚ) (spaceWidth targetWidth : ℚ)
        (candidateCount : ℕ) (bf mfr : ℚ) (mode : String) (rng : LB2.Rng),
      ∀ c ∈ LB2.computeBreaks words wordWidths spaceWidth targetWidth
          candidateCount bf mfr mode rng,
        c.breaks.Chain' (· < ·) ∧ c.lines.flatten = words ∧
        (∀ l ∈ c.lines, l ≠ []) ∧
        (c.lines.map List.length).sum = words.length) := by
  constructor
  · intro words wordWidths spaceWidth targetWidth candidateCount mode bf mfr hne c hc
    have h := LB1.generateCandidates_sound words wordWidths spaceWidth targetWidth
      candidateCount mode bf mfr hne c hc
    refine ⟨h.1, h.2.2.1, h.2.2.2.1, h.2.2.2.2.1, ?_⟩
    rw [← List.length_flatten, h.2.2.1]
  · intro words wordWidths spaceWidth targetWidth candidateCount bf mfr mode rng c hc
    have h := LB2.computeBreaks_prop words wordWidths spaceWidth targetWidth
      candidateCount bf mfr mode rng c hc
    refine ⟨h.2.2.1, h.1, h.2.1, ?_⟩
    rw [← List.length_flatten, h.1]

set_option maxRecDepth 1000000 in
/-- Witness for C1: the partition property evaluated on concrete runs of both
generators; the listed candidates are the actual outputs. -/
theorem claim_C1_partition_witness :
    ((⟨[], 0, [["aa", "bb"]], [110], ⟨0, 0, 0, 0, 0⟩⟩ : LB1.Candidate).breaks.Chain' (· < ·) ∧
     (⟨[], 0, [["aa", "bb"]], [110], ⟨0, 0, 0, 0, 0⟩⟩ : LB1.Candidate).lines.flatten =
       ["aa", "bb"] ∧
     (∀ l ∈ (⟨[], 0, [["aa", "bb"]], [110], ⟨0, 0, 0, 0, 0⟩⟩ : LB1.Candidate).lines, l ≠ []) ∧
     (⟨[], 0, [["aa", "bb"]], [110], ⟨0, 0, 0, 0, 0⟩⟩ : LB1.Candidate).lines.length =
       (⟨[], 0, [["aa", "bb"]], [110], ⟨0, 0, 0, 0, 0⟩⟩ : LB1.Candidate).breaks.length + 1 ∧
     ((⟨[], 0, [["aa", "bb"]], [110], ⟨0, 0, 0, 0, 0⟩⟩ : LB1.Candidate).lines.map
       List.length).sum = (["aa", "bb"] : List String).length) ∧
    ((⟨[["aa", "bb"]], [], some (405/4), [145]⟩ : LB2.Cand).breaks.Chain' (· < ·) ∧
     (⟨[["aa", "bb"]], [], some (405/4), [145]⟩ : LB2.Cand).lines.flatten = ["aa", "bb"] ∧
     (∀ l ∈ (⟨[["aa", "bb"]], [], some (405/4), [145]⟩ : LB2.Cand).lines, l ≠ []) ∧
     ((⟨[["aa", "bb"]], [], some (405/4), [145]⟩ : LB2.Cand).lines.map
       List.length).sum = (["aa", "bb"] : List String).length) :=
  ⟨claim_C1_partition.1 ["aa", "bb"] [50, 50] 10 110 5 "fit" 0.5 0.5 (by decide)
      _ (by decide),
   claim_C1_partition.2 ["aa", "bb"] [30, 30] 85 100 1 0.5 0.5 "fit" ⟨fun _ => 1/2, 0⟩
      _ (by decide)⟩

/-- **C2 (amended)**: for every candidate returned by `generateCandidates` on a
non-empty token list, re-computing the score from the candidate's own `lines`
and `lineWidths` via the scorer `scoreCandidate` reproduces the stored `score`
(and `scoreBreakdown`) exactly.  (For the dynamic-programming `computeBreaks`
the stored score is the accumulated DP penalty, which re-scoring via
`calculateScoreBreakdown` does not reproduce — see the counterexample.) -/
theorem claim_C2_score_consistency :
    ∀ (words : List String) (wordWidths : List ℚ) (spaceWidth targetWidth : ℚ)
      (candidateCount : ℕ) (mode : String) (bf mfr : ℚ), words ≠ [] →
    ∀ c ∈ LB1.generateCandidates words wordWidths spaceWidth targetWidth
        candidateCount mode bf mfr,
      c.score = (LB1.scoreCandidate c.lines c.lineWidths targetWidth c.breaks
        words mode).score ∧
      c.scoreBreakdown = (LB1.scoreCandidate c.lines c.lineWidths targetWidth
        c.breaks words mode).scoreBreakdown := by
  intro words wordWidths spaceWidth targetWidth candidateCount mode bf mfr hne c hc
  have h := LB1.generateCandidates_sound words wordWidths spaceWidth targetWidth
    candidateCount mode bf mfr hne c hc
  exact ⟨h.2.2.2.2.2.2.1, h.2.2.2.2.2.2.2.1⟩

set_option maxRecDepth 1000000 in
/-- Witness for C2: score consistency evaluated on a concrete run of
`generateCandidates`. -/
theorem claim_C2_score_consistency_witness :
    (⟨[], 0, [["aa", "bb"]], [110], ⟨0, 0, 0, 0, 0⟩⟩ : LB1.Candidate).score =
      (LB1.scoreCandidate [["aa", "bb"]] [110] 110 [] ["aa", "bb"] "fit").score ∧
    (⟨[], 0, [["aa", "bb"]], [110], ⟨0, 0, 0, 0, 0⟩⟩ : LB1.Candidate).scoreBreakdown =
      (LB1.scoreCandidate [["aa", "bb"]] [110] 110 [] ["aa", "bb"] "fit").scoreBreakdown :=
  claim_C2_score_consistency ["aa", "bb"] [50, 50] 10 110 5 "fit" 0.5 0.5
    (by decide) _ (by decide)

set_option maxRecDepth 1000000 in
/-- Counterexample for C2 as stated: the dynamic-programming `computeBreaks`
(whose sources the claim also cites) stores the accumulated DP penalty as
`score`, which re-scoring the candidate's own `(lines, lineWidths)` via the
Scorer `calculateScoreBreakdown` does not reproduce: on a single word of
width 100 at target width 100 the stored score is `0` while re-scoring gives
`10` (the orphan penalty) — far beyond any floating-point tolerance. -/
theorem claim_C2_score_consistency_counterexample :
    LB2.computeBreaks ["hello"] [100] 0 100 1 0.5 0.5 "fit" ⟨fun _ => 1/2, 0⟩ =
      [⟨[["hello"]], [], some 0, [100]⟩] ∧
    (LB2.calculateScoreBreakdown [["hello"]] [100] 100 0.5).score = some 10 ∧
    (10 : ℝ) ≠ ((0 : ℚ) : ℝ) := by
  refine ⟨by decide, ?_, by norm_num⟩
  simp only [LB2.calculateScoreBreakdown, LB2.countProtectedBreaksV2]
  norm_num [Real.sqrt_zero]

/-- **C3 (amended)**: every line width of every candidate returned by
`generateCandidates` on a non-empty token list is at most
`targetWidth * (1 + balanceFactor)` (and at least
`targetWidth * minFillRatio`), for every balance factor.  (The dynamic
program of the second `computeBreaks` instead cuts lines off at the fixed
bound `targetWidth * 1.5`, which coincides with
`targetWidth * (1 + balanceFactor)` only at `balanceFactor = 0.5` — see the
counterexample.) -/
theorem claim_C3_width_bound :
    ∀ (words : List String) (wordWidths : List ℚ) (spaceWidth targetWidth : ℚ)
      (candidateCount : ℕ) (mode : String) (bf mfr : ℚ), words ≠ [] →
    ∀ c ∈ LB1.generateCandidates words wordWidths spaceWidth targetWidth
        candidateCount mode bf mfr,
      ∀ w ∈ c.lineWidths,
        targetWidth * mfr ≤ w ∧ w ≤ targetWidth * (1 + bf) := by
  intro words wordWidths spaceWidth targetWidth candidateCount mode bf mfr hne c hc
  exact (LB1.generateCandidates_sound words wordWidths spaceWidth targetWidth
    candidateCount mode bf mfr hne c hc).2.2.2.2.2.2.2.2

set_option maxRecDepth 1000000 in
/-- Witness for C3: the width bound evaluated on a concrete run. -/
theorem claim_C3_width_bound_witness :
    (110 : ℚ) * 0.5 ≤ 110 ∧ (110 : ℚ) ≤ 110 * (1 + 0.5) :=
  claim_C3_width_bound ["aa", "bb"] [50, 50] 10 110 5 "fit" 0.5 0.5
    (by decide) ⟨[], 0, [["aa", "bb"]], [110], ⟨0, 0, 0, 0, 0⟩⟩ (by decide)
    110 (by decide)

set_option maxRecDepth 1000000 in
/-- Counterexample for C3 as stated: at `balanceFactor = 0`, the dynamic
program of the second `computeBreaks` still considers lines up to
`targetWidth * 1.5` and returns a candidate whose single line has width
`120 > targetWidth * (1 + 0) = 100`. -/
theorem claim_C3_width_bound_counterexample :
    LB2.computeBreaks ["aa", "bb"] [60, 60] 0 100 1 0 0.5 "fit" ⟨fun _ => 1/2, 0⟩ =
      [⟨[["aa", "bb"]], [], some 30, [120]⟩] ∧
    ¬ ((120 : ℚ) ≤ 100 * (1 + 0)) := by
  exact ⟨by decide, by norm_num⟩

set_option maxRecDepth 1000000 in
/-- Counterexample for C4 as stated: a single token of width 100 at target
width 10 (with `balanceFactor = 0`, `minFillRatio = 0`) yields NO candidate
from `generateCandidates`, not exactly one: the token's width exceeds
`targetWidth * (1 + balanceFactor)`, so the only line is never accepted. -/
theorem claim_C4_single_token_counterexample :
    LB1.generateCandidates ["a"] [100] 0 10 5 "fit" 0 0 = [] := by decide

/-- **C4 (amended)**: calling `generateCandidates` with exactly one token
returns exactly one candidate — whose single line contains that one token —
whenever the token's width lies within the acceptance window
`[targetWidth * minFillRatio, targetWidth * (1 + balanceFactor)]` (and the
requested candidate count is positive); outside that window it returns no
candidate (see the counterexample). -/
theorem claim_C4_single_token (tok : String) (w spaceWidth targetWidth bf mfr : ℚ)
    (candidateCount : ℕ) (mode : String) (hcc : 1 ≤ candidateCount)
    (h1 : targetWidth * mfr ≤ w) (h2 : w ≤ targetWidth * (1 + bf)) :
    ∃ c, LB1.generateCandidates [tok] [w] spaceWidth targetWidth candidateCount
        mode bf mfr = [c] ∧
      c.lines = [[tok]] ∧ c.lineWidths = [w] ∧ c.breaks = [] := by
  have hw : LB1.calcWidth [w] spaceWidth 0 0 = w := by
    show (List.range' 0 (0 + 1 - 0)).foldl _ 0 = w
    rw [show List.range' 0 (0 + 1 - 0) = [0] from rfl]
    simp [List.getD]
  have hscan : LB1.scanEnds [w] spaceWidth targetWidth bf mfr 1 0 1 0 = [0] := by
    rw [LB1.scanEnds]
    rw [if_neg (by omega : ¬ (0 : ℕ) ≥ 1)]
    simp only [hw]
    rw [if_pos ⟨h1, h2⟩, if_neg (not_lt.mpr h2)]
    rfl
  have hrec : LB1.recurse [tok] [w] spaceWidth targetWidth mode bf mfr 2 0 [] =
      [LB1.emitCandidate [tok] [w] spaceWidth targetWidth mode [0]] := by
    rw [show (2 : ℕ) = 1 + 1 from rfl, LB1.recurse]
    rw [if_neg (by simp : ¬ (0 : ℕ) ≥ [tok].length)]
    have hlen : [tok].length = 1 := rfl
    rw [show [tok].length - 0 = 1 from rfl, hlen, hscan]
    rw [show ([0] : List ℕ).flatMap
        (fun e => LB1.recurse [tok] [w] spaceWidth targetWidth mode bf mfr 1 (e + 1)
          ([] ++ [e])) =
      LB1.recurse [tok] [w] spaceWidth targetWidth mode bf mfr 1 1 [0] ++ [] from rfl]
    rw [List.append_nil, LB1.recurse]
    rw [if_pos (by simp : (1 : ℕ) ≥ [tok].length)]
  refine ⟨LB1.emitCandidate [tok] [w] spaceWidth targetWidth mode [0], ?_, ?_, ?_, rfl⟩
  · show ((LB1.recurse [tok] [w] spaceWidth targetWidth mode bf mfr
        ([tok].length + 1) 0 []).insertionSort
          (fun a b => a.score ≤ b.score)).take candidateCount = _
    rw [show [tok].length + 1 = 2 from rfl, hrec]
    rw [show (([LB1.emitCandidate [tok] [w] spaceWidth targetWidth mode [0]]).insertionSort
        (fun a b => a.score ≤ b.score)) =
      [LB1.emitCandidate [tok] [w] spaceWidth targetWidth mode [0]] from rfl]
    obtain ⟨k, rfl⟩ : ∃ k, candidateCount = k + 1 := ⟨candidateCount - 1, by omega⟩
    rw [List.take_succ_cons, List.take_nil]
  · rfl
  · show [LB1.calcWidth [w] spaceWidth 0 0] = [w]
    rw [hw]

/-- Witness for the amended C4 at a concrete in-window input. -/
theorem claim_C4_single_token_witness :
    ∃ c, LB1.generateCandidates ["hello"] [80] 10 100 3 "fit" 0.5 0.5 = [c] ∧
      c.lines = [["hello"]] ∧ c.lineWidths = [80] ∧ c.breaks = [] :=
  claim_C4_single_token "hello" 80 10 100 0.5 0.5 3 "fit" (by omega)
    (by norm_num) (by norm_num)

/-- **C5**: calling the dynamic-programming `computeBreaks` with an empty token
list, or with `words` and `wordWidths` of different lengths, returns an empty
candidate list (and, being a total function, raises no exception), for every
other argument and every random stream. -/
theorem claim_C5_empty_input (words : List String) (wordWidths : List ℚ)
    (spaceWidth targetWidth : ℚ) (candidateCount : ℕ) (bf mfr : ℚ)
    (mode : String) (rng : LB2.Rng)
    (h : words = [] ∨ words.length ≠ wordWidths.length) :
    LB2.computeBreaks words wordWidths spaceWidth targetWidth candidateCount
      bf mfr mode rng = [] := by
  unfold LB2.computeBreaks
  rcases h with rfl | hne
  · by_cases h1 : ([] : List String).length ≠ wordWidths.length
    · rw [if_pos h1]
    · rw [if_neg h1, if_pos (show ([] : List String).length = 0 from rfl)]
  · rw [if_pos hne]

/-- Witness for C5: the empty input and a mismatched-length input. -/
theorem claim_C5_empty_input_witness :
    LB2.computeBreaks [] [] 1 100 3 0.5 0.5 "fit" ⟨fun _ => 0, 0⟩ = [] ∧
    LB2.computeBreaks ["a"] [] 1 100 3 0.5 0.5 "fit" ⟨fun _ => 0, 0⟩ = [] :=
  ⟨claim_C5_empty_input [] [] 1 100 3 0.5 0.5 "fit" ⟨fun _ => 0, 0⟩ (Or.inl rfl),
   claim_C5_empty_input ["a"] [] 1 100 3 0.5 0.5 "fit" ⟨fun _ => 0, 0⟩
     (Or.inr (by decide))⟩

set_option maxRecDepth 1000000 in
/-- **C7 (the code violates the claim)**: `computeBreaks` has no seed
parameter at all — its diversity search draws from the ambient
`Math.random()`.  Modelling that ambient source as an explicit stream, two
invocations with identical inputs but different ambient streams return
different candidate sets (here the accepted alternative's stored score is
perturbed by the `0.9 + Math.random() * 0.2` factor), so identical inputs
do not determine the output and no "identical seed" can be supplied. -/
theorem claim_C7_not_reproducible :
    LB2.computeBreaks ["aa", "bb"] [30, 30] 85 100 2 0.5 0.5 "fit"
        ⟨fun _ => 1/2, 0⟩ ≠
    LB2.computeBreaks ["aa", "bb"] [30, 30] 85 100 2 0.5 0.5 "fit"
        ⟨fun _ => 0, 0⟩ := by decide

theorem foldl_add_map (f : ℚ → ℝ) :
    ∀ (l : List ℚ) (a : ℝ),
      l.foldl (fun (acc : ℝ) (w : ℚ) => acc + f w) a = a + (l.map f).sum := by
  intro l
  induction l with
  | nil => intro a; simp
  | cons w rest ih =>
    intro a
    rw [List.foldl_cons, ih (a + f w), List.map_cons, List.sum_cons]
    ring

/-- The closed form of the raggedness field of `calculateScoreBreakdown`: the
clamped percentage form of the root-mean-square deviation of the non-final
line widths from the target width. -/
theorem raggedness_spec (lines : List (List String)) (lineWidths : List ℚ)
    (targetWidth bf : ℚ) (hlines : lines.length ≠ 0) (hlw : lineWidths.length ≠ 0) :
    (LB2.calculateScoreBreakdown lines lineWidths targetWidth bf).raggedness =
      if lineWidths.length > 1 then
        min 100 (Real.sqrt
          ((lineWidths.dropLast.map
              (fun (w : ℚ) => (((targetWidth : ℝ) - (w : ℝ)) / (targetWidth : ℝ)) ^ 2)).sum /
            ((lineWidths.length - 1 : ℕ) : ℝ)) * 100)
      else 0 := by
  rw [LB2.calculateScoreBreakdown]
  rw [if_neg (by push_neg; exact ⟨hlines, hlw⟩ :
    ¬ (lines.length = 0 ∨ lineWidths.length = 0))]
  dsimp only
  by_cases hgt : lineWidths.length > 1
  · rw [if_pos hgt, if_pos hgt]
    have hdl : lineWidths.dropLast.length = lineWidths.length - 1 :=
      List.length_dropLast _
    rw [if_neg (by rw [hdl]; omega)]
    rw [foldl_add_map _ lineWidths.dropLast 0, zero_add]
    have hmaps : (lineWidths.dropLast.map
        (fun (w : ℚ) => (|(targetWidth : ℝ) - (w : ℝ)| / (targetWidth : ℝ)) ^ 2)).sum =
        (lineWidths.dropLast.map
        (fun (w : ℚ) => (((targetWidth : ℝ) - (w : ℝ)) / (targetWidth : ℝ)) ^ 2)).sum := by
      congr 1
      apply List.map_congr_left
      intro w _
      rw [div_pow, div_pow, sq_abs]
    rw [hmaps, hdl]
  · rw [if_neg hgt, if_neg hgt]
    rw [if_pos (by simp : ([] : List ℚ).length = 0)]

/-- **C6 (amended)**: the `scoreBreakdown` raggedness equals the
root-mean-square of `(targetWidth - lineWidth) / targetWidth` over all lines
except the last, expressed as a percentage (multiplied by 100) and clamped at
100; the final line is excluded, and a single-line layout has raggedness 0. -/
theorem claim_C6_raggedness (lines : List (List String)) (lineWidths : List ℚ)
    (targetWidth bf : ℚ) (hlines : lines.length ≠ 0) (hlw : lineWidths.length ≠ 0) :
    (LB2.calculateScoreBreakdown lines lineWidths targetWidth bf).raggedness =
      if lineWidths.length > 1 then
        min 100 (Real.sqrt
          ((lineWidths.dropLast.map
              (fun (w : ℚ) => (((targetWidth : ℝ) - (w : ℝ)) / (targetWidth : ℝ)) ^ 2)).sum /
            ((lineWidths.length - 1 : ℕ) : ℝ)) * 100)
      else 0 :=
  raggedness_spec lines lineWidths targetWidth bf hlines hlw

/-- Witness for the amended C6 at a concrete two-line layout. -/
theorem claim_C6_raggedness_witness :
    (LB2.calculateScoreBreakdown [["a"], ["b"]] [50, 100] 100 0.5).raggedness =
      if ([50, 100] : List ℚ).length > 1 then
        min 100 (Real.sqrt
          ((([50, 100] : List ℚ).dropLast.map
              (fun (w : ℚ) => ((((100 : ℚ) : ℝ) - (w : ℝ)) / ((100 : ℚ) : ℝ)) ^ 2)).sum /
            ((([50, 100] : List ℚ).length - 1 : ℕ) : ℝ)) * 100)
      else 0 :=
  claim_C6_raggedness [["a"], ["b"]] [50, 100] 100 0.5 (by decide) (by decide)

/-- Counterexample for C6 as stated: the stored raggedness is the clamped
percentage `min 100 (RMS * 100)`, not the raw root-mean-square itself: for
line widths `[50, 100]` at target width 100 the breakdown stores `50` while
the root-mean-square of `(targetWidth - lineWidth) / targetWidth` over the
non-final lines is `1/2`. -/
theorem claim_C6_raggedness_counterexample :
    (LB2.calculateScoreBreakdown [["a"], ["b"]] [50, 100] 100 0.5).raggedness = 50 ∧
    Real.sqrt (((((100 : ℝ) - 50) / 100) ^ 2) / 1) = 1 / 2 ∧
    (50 : ℝ) ≠ 1 / 2 := by
  have hsq : Real.sqrt ((1 : ℝ) / 4) = 1 / 2 := by
    rw [show (1 / 4 : ℝ) = (1 / 2) ^ 2 by norm_num,
      Real.sqrt_sq (by norm_num : (0 : ℝ) ≤ 1 / 2)]
  refine ⟨?_, ?_, by norm_num⟩
  · rw [raggedness_spec [["a"], ["b"]] [50, 100] 100 0.5 (by decide) (by decide)]
    rw [if_pos (by norm_num : ([50, 100] : List ℚ).length > 1)]
    have hsum : (([50, 100] : List ℚ).dropLast.map
        (fun (w : ℚ) => ((((100 : ℚ) : ℝ) - (w : ℝ)) / ((100 : ℚ) : ℝ)) ^ 2)).sum = 1 / 4 := by
      norm_num [List.dropLast]
    rw [hsum]
    norm_num [hsq]
  · norm_num [hsq]

namespace RE

theorem applyWrite_getElem? (arr : List Token) (w : ℕ × String) (k : ℕ) :
    (applyWrite arr w)[k]? =
      (arr[k]?).map (fun t => if k = w.1 then stampTok (some w.2) t else t) := by
  unfold applyWrite listModify
  rw [List.getElem?_mapIdx]
  rfl

theorem stampTok_stampTok (r : String) (o : Option String) (t : Token) :
    stampTok (some r) (stampTok o t) = stampTok (some r) t := by
  cases o <;> rfl

theorem applyWrites_getElem? :
    ∀ (ws : List (ℕ × String)) (arr : List Token) (k : ℕ),
    (applyWrites arr ws)[k]? = (arr[k]?).map (stampTok (lastW ws k)) := by
  intro ws
  induction ws with
  | nil =>
    intro arr k
    show arr[k]? = _
    cases arr[k]? <;> rfl
  | cons w ws ih =>
    intro arr k
    show (applyWrites (applyWrite arr w) ws)[k]? = _
    rw [ih (applyWrite arr w) k, applyWrite_getElem?, Option.map_map]
    have hlast : lastW (w :: ws) k =
        (lastW ws k).or (if w.1 = k then some w.2 else none) := by
      unfold lastW
      rw [List.reverse_cons, List.find?_append]
      cases hf : ws.reverse.find? (fun w' => w'.1 = k) with
      | none =>
        simp only [Option.or]
        by_cases h : w.1 = k
        · simp [List.find?, h]
        · simp [List.find?, h]
      | some v => simp [Option.or]
    rw [hlast]
    cases arr[k]? with
    | none => rfl
    | some t =>
      simp only [Option.map_some', Function.comp_apply]
      cases hl : lastW ws k with
      | some r =>
        simp only [Option.or]
        by_cases h : k = w.1
        · rw [if_pos h, stampTok_stampTok]
        · rw [if_neg h]
      | none =>
        simp only [Option.or]
        by_cases h : w.1 = k
        · rw [if_pos (h.symm), if_pos h]
          rfl
        · rw [if_neg (fun hh => h hh.symm), if_neg h]

/-- Applying the same write list twice is the same as applying it once: every
write is absolute (it does not read the field it sets). -/
theorem applyWrites_applyWrites (arr : List Token) (ws : List (ℕ × String)) :
    applyWrites (applyWrites arr ws) ws = applyWrites arr ws := by
  apply List.ext_getElem?
  intro k
  rw [applyWrites_getElem?, applyWrites_getElem?, Option.map_map]
  cases arr[k]? with
  | none => rfl
  | some t =>
    simp only [Option.map_some', Function.comp_apply]
    cases lastW ws k with
    | none => rfl
    | some r => rw [stampTok_stampTok]

theorem proj_stampTok (o : Option String) (t : Token) :
    proj (stampTok o t) = proj t := by
  cases o <;> rfl

/-- The writes do not change any token's text or separator. -/
theorem map_proj_applyWrites (arr : List Token) (ws : List (ℕ × String)) :
    (applyWrites arr ws).map proj = arr.map proj := by
  apply List.ext_getElem?
  intro k
  rw [List.getElem?_map, List.getElem?_map, applyWrites_getElem?, Option.map_map]
  cases arr[k]? with
  | none => rfl
  | some t =>
    simp only [Option.map_some', Function.comp_apply, proj_stampTok]

end RE

/-- **C8**: annotation is idempotent and free of hidden state: running the
token annotator (`annotateLineBreakingWithSeparators`) twice on the same
tokens and rule config yields exactly the same annotated tokens as running it
once, and likewise running `applySegmentationRules` on its own output yields
the same token dispositions and the same violation list, for every token
list, every config, and every regular-expression oracle for the
fixed-expression patterns. -/
theorem claim_C8_annotator_idempotent :
    (∀ (arr : List RE.Token) (cfg : RE.RuleCfg),
      RE.annotateLineBreakingWithSeparators
        (RE.annotateLineBreakingWithSeparators arr cfg) cfg =
      RE.annotateLineBreakingWithSeparators arr cfg) ∧
    (∀ (regexTest : String → String → Bool) (arr : List RE.Token) (cfg : RE.RuleCfg),
      RE.applySegmentationRules regexTest
        (RE.applySegmentationRules regexTest arr cfg).1 cfg =
      RE.applySegmentationRules regexTest arr cfg) := by
  constructor
  · intro arr cfg
    have hlen : (RE.annotateLineBreakingWithSeparators arr cfg).length = arr.length := by
      simp [RE.annotateLineBreakingWithSeparators]
    have hget : ∀ k : ℕ, (RE.annotateLineBreakingWithSeparators arr cfg)[k]? =
        (arr[k]?).map (RE.annotateTok arr cfg k) := by
      intro k
      simp [RE.annotateLineBreakingWithSeparators, List.getElem?_mapIdx]
    have htext : ∀ j : ℕ,
        ((RE.annotateLineBreakingWithSeparators arr cfg).getD j RE.emptyToken).text =
        (arr.getD j RE.emptyToken).text := by
      intro j
      rw [List.getD_eq_getElem?_getD, List.getD_eq_getElem?_getD, hget j]
      cases arr[j]? <;> rfl
    apply List.ext_getElem?
    intro k
    rw [hget k]
    have hget2 : ∀ k : ℕ,
        (RE.annotateLineBreakingWithSeparators
          (RE.annotateLineBreakingWithSeparators arr cfg) cfg)[k]? =
        ((RE.annotateLineBreakingWithSeparators arr cfg)[k]?).map
          (RE.annotateTok (RE.annotateLineBreakingWithSeparators arr cfg) cfg k) := by
      intro k
      simp [RE.annotateLineBreakingWithSeparators, List.getElem?_mapIdx]
    rw [hget2 k, hget k, Option.map_map]
    cases harr : arr[k]? with
    | none => rfl
    | some t =>
      simp only [Option.map_some', Function.comp_apply]
      -- per-token idempotence
      unfold RE.annotateTok
      simp only [hlen, htext]
      by_cases hC2 : k < arr.length - 1 ∧ (RE.before cfg).contains "period" ∧
          cfg.periods.isSome ∧
          (cfg.periods.getD []).contains ((arr.getD (k + 1) RE.emptyToken).text)
      · rw [if_pos hC2, if_pos hC2]
      · rw [if_neg hC2, if_neg hC2]
        by_cases hC1 : k < arr.length - 1 ∧ (RE.after cfg).contains "hyphen" ∧
            (t.separator = "-" ∨ t.separator = "‑")
        · rw [if_pos hC1]
          rw [if_pos (show k < arr.length - 1 ∧ (RE.after cfg).contains "hyphen" ∧
            ((RE.Token.mk t.text t.separator (some "avoid") t.violationReason).separator = "-" ∨
             (RE.Token.mk t.text t.separator (some "avoid") t.violationReason).separator = "‑")
            from hC1)]
        · rw [if_neg hC1]
          have hbase : (match t.lineBreaking with
              | none => "allow"
              | some s => if s = "" then "allow" else s) ≠ "" := by
            cases t.lineBreaking with
            | none => decide
            | some s =>
              by_cases hs : s = ""
              · rw [hs]; decide
              · simp [hs]
          rw [if_neg (show ¬ (k < arr.length - 1 ∧ (RE.after cfg).contains "hyphen" ∧
            ((RE.Token.mk t.text t.separator _ t.violationReason).separator = "-" ∨
             (RE.Token.mk t.text t.separator _ t.violationReason).separator = "‑"))
            from hC1)]
          simp [hbase]
  · intro regexTest arr cfg
    unfold RE.applySegmentationRules
    dsimp only
    rw [RE.map_proj_applyWrites, RE.applyWrites_applyWrites]

/-- **C9**: requesting the configuration for an unknown locale is not an
error.  If the locale is in neither the cache nor the registry, then: when
the registry also has no `"en"` entry (the shipped registry only registers
`de`, `es`, `fr`, `ja`), `getConfig` returns exactly the synthesized default
configuration `createDefaultConfig locale` (empty rule lists, default
punctuation); and when an `"en"` entry does exist, `getConfig` falls back to
that baseline entry, normalized.  In both cases a configuration value is
returned rather than an error. -/
theorem claim_C9_unknown_locale_fallback :
    (∀ (configs : List (String × LCM.PartialCfg)) (cache : List (String × LCM.Cfg))
        (locale : String),
        LCM.lookupA cache locale = none →
        LCM.lookupA configs locale = none →
        LCM.lookupA configs "en" = none →
        (LCM.getConfig configs cache locale).1 = LCM.createDefaultConfig locale) ∧
    (∀ (configs : List (String × LCM.PartialCfg)) (cache : List (String × LCM.Cfg))
        (locale : String) (pc : LCM.PartialCfg),
        locale ≠ "en" →
        LCM.lookupA cache locale = none →
        LCM.lookupA configs locale = none →
        LCM.lookupA configs "en" = some pc →
        (LCM.getConfig configs cache locale).1 = LCM.normalizeConfig pc locale) := by
  constructor
  · intro configs cache locale h1 h2 h3
    unfold LCM.getConfig
    rw [h1, h2]
    by_cases hl : locale = "en"
    · rw [if_pos hl]
      rfl
    · rw [if_neg hl, h3]
      rfl
  · intro configs cache locale pc hne h1 h2 h3
    unfold LCM.getConfig
    rw [h1, h2, if_neg hne, h3]

theorem claim_C9_unknown_locale_fallback_witness :
    (LCM.getConfig [] [] "xx").1 = LCM.createDefaultConfig "xx" ∧
    (LCM.getConfig [("en", (LCM.createDefaultConfig "en").toPartial)] [] "xx").1 =
      LCM.normalizeConfig (LCM.createDefaultConfig "en").toPartial "xx" :=
  ⟨claim_C9_unknown_locale_fallback.1 [] [] "xx" rfl rfl rfl,
   claim_C9_unknown_locale_fallback.2
     [("en", (LCM.createDefaultConfig "en").toPartial)] [] "xx"
     ((LCM.createDefaultConfig "en").toPartial)
     (by decide) rfl (by decide) (by decide)⟩

/-- **C10**: localization filtering only removes candidates.
`filterCandidatesByLocalizationRules` always returns a sublist of its input
(so every returned candidate is an element of the input, in the original
order and unmodified); when the locale has no registry entry, or an entry
without a `rules` object, the input is returned unchanged; and the wrapped
optimizer built by `createLocalizedLineBreakOptimizer` skips filtering
entirely for the baseline locale `"en"` and for the empty locale. -/
theorem claim_C10_filter_sublist :
    (∀ (reg : String → Option LLB.Rules) (cands : List LB2.Cand)
        (words : List String) (locale : String),
        (LLB.filterCandidatesByLocalizationRules reg cands words locale).Sublist cands) ∧
    (∀ (reg : String → Option LLB.Rules) (cands : List LB2.Cand)
        (words : List String) (locale : String),
        reg locale = none →
        LLB.filterCandidatesByLocalizationRules reg cands words locale = cands) ∧
    (∀ (reg : String → Option LLB.Rules) (cands : List LB2.Cand)
        (words : List String) (locale : String) (r : LLB.Rules),
        reg locale = some r → r.rules = none →
        LLB.filterCandidatesByLocalizationRules reg cands words locale = cands) ∧
    (∀ (reg : String → Option LLB.Rules)
        (orig : List String → List ℚ → ℚ → ℚ → ℕ → ℚ → ℚ → String → List LB2.Cand)
        (words : List String) (ww : List ℚ) (sw tw : ℚ) (cc : ℕ) (bf mfr : ℚ)
        (mode : String),
        LLB.createLocalizedLineBreakOptimizer reg orig words ww sw tw cc bf mfr mode "en" =
          orig words ww sw tw cc bf mfr mode ∧
        LLB.createLocalizedLineBreakOptimizer reg orig words ww sw tw cc bf mfr mode "" =
          orig words ww sw tw cc bf mfr mode) := by
  refine ⟨?_, ?_, ?_, ?_⟩
  · intro reg cands words locale
    unfold LLB.filterCandidatesByLocalizationRules
    cases reg locale with
    | none => exact List.Sublist.refl cands
    | some rules =>
      obtain ⟨rr, fw⟩ := rules
      cases rr with
      | none => exact List.Sublist.refl cands
      | some rl => exact List.filter_sublist cands
  · intro reg cands words locale h
    unfold LLB.filterCandidatesByLocalizationRules
    rw [h]
  · intro reg cands words locale r h1 h2
    unfold LLB.filterCandidatesByLocalizationRules
    rw [h1]
    obtain ⟨rr, fw⟩ := r
    have h2r : rr = none := h2
    subst h2r
    rfl
  · intro reg orig words ww sw tw cc bf mfr mode
    constructor
    · unfold LLB.createLocalizedLineBreakOptimizer
      rw [if_neg (by simp)]
    · unfold LLB.createLocalizedLineBreakOptimizer
      rw [if_neg (by simp)]

theorem claim_C10_filter_sublist_witness :
    LLB.filterCandidatesByLocalizationRules (fun _ => none) [] [] "de" = [] ∧
    LLB.filterCandidatesByLocalizationRules (fun _ => some ⟨none, none⟩) [] [] "de" = [] :=
  ⟨claim_C10_filter_sublist.2.1 (fun _ => none) [] [] "de" rfl,
   claim_C10_filter_sublist.2.2.1 (fun _ => some ⟨none, none⟩) [] [] "de"
     ⟨none, none⟩ rfl rfl⟩

